import Mathlib

/-!
# Telnet chat server (`16-telnet-chat/cmd/server/main.go`)

A shallow embedding of the chat server's session loop.

* Go `string`s are Lean `String`s; `strings.Split(s, " ")` and `strings.Join(xs, " ")`
  are written out on the character lists (the separator is the single byte `0x20`,
  which never occurs inside a multi-byte UTF-8 sequence, so splitting characters and
  splitting bytes agree).
* A connection is identified by its remote address (`conn.RemoteAddr()`), the key of
  `room.members`.  The `*client` stored under a key is the client that owns that
  connection, so a member map is represented by its key set.
* The process state (`World`) is the global `rooms` map, the `client` record of every
  connection, and which connections have been closed.  A connection that has not been
  accepted yet is represented by the record `handleConnection` will give it.
* Sessions run one loop iteration at a time (`run`, `Reachable`); the loop of a
  session ends with `/quit`, which also closes its connection.
* What a step writes is recorded per connection (`Out`): Go ranges over a map in an
  unspecified order, and the only order that is observable is the one on each single
  connection.
* A nil-pointer dereference (`rooms[c.room]` on a missing key, then a field access)
  is the result `none`.
* `Out` records the writes that are attempted.  `sendMsgToClient` returns nothing to
  its caller, so a failing `conn.Write` cannot change what a step does; `announceOn`
  spells out the loop of `announce` under failing writes.
-/

namespace TelnetChat

/-! ## Strings -/

namespace strings

/-- Pieces of a character list cut at every occurrence of `sep`; `n` separators give
`n + 1` pieces, and the empty list gives one empty piece. -/
def splitChars (sep : Char) : List Char → List (List Char)
  | [] => [[]]
  | c :: cs =>
    if c = sep then [] :: splitChars sep cs
    else
      match splitChars sep cs with
      | [] => [[c]]
      | p :: ps => (c :: p) :: ps

/-- Go `strings.Split(s, sep)` for a one-character separator. -/
def Split (s : String) (sep : Char) : List String :=
  (splitChars sep s.data).map String.mk

/-- Go `strings.Join(elems, sep)`. -/
def Join : List String → String → String
  | [], _ => ""
  | [x], _ => x
  | x :: y :: rest, sep => x ++ sep ++ Join (y :: rest) sep

end strings

/-! ## Data model -/

/-- Remote address of a connection (`net.Addr`): the identity of a client. -/
abbrev Addr := Nat

/-- The record `client`; its `conn` field is the address under which the record is kept. -/
structure client where
  name : String
  room : String
  deriving DecidableEq, Repr

/-- The record `room`: `members map[net.Addr]*client`, as its set of keys. -/
structure room where
  members : Finset Addr
  deriving DecidableEq

/-- Lines written to each connection, oldest first. -/
abbrev Out := Addr → List String

/-- Process state. -/
structure World where
  /-- the `client` record of each connection -/
  clients : Addr → client
  /-- the global `rooms map[string]*room`; `none` is a missing key -/
  rooms : String → Option room
  /-- connections on which `conn.Close()` has been called -/
  closed : Addr → Bool

/-- The constant `usage`. -/
def usage : String :=
  "\n/nick <name>: get a name, or stay anonymous\n/join <room>: join a room, if room doesn't exist the new room will be created\n/say <msg>:   send message to everyone in a room\n/quit:        disconnects from the chat server\n"

/-- Nothing written. -/
def silent : Out := fun _ => []

/-- First the writes of `o₁`, then those of `o₂`. -/
def Out.append (o₁ o₂ : Out) : Out := fun a => o₁ a ++ o₂ a

/-- Method `sendMsgToClient` of the client at `a`: writes `msg + "\n"` to its own
connection; a write error is logged and dropped. -/
def sendMsgToClient (a : Addr) (msg : String) : Out :=
  fun b => if b = a then [msg ++ "\n"] else []

/-- Method `announce` of a room: every member whose address differs from the sender's
is sent `msg`. -/
def room.announce (r : room) (sender : Addr) (msg : String) : Out :=
  fun b => if b ∈ r.members ∧ sender ≠ b then [msg ++ "\n"] else []

/-- Method `quitCurrentRoom` of the client at `a`. -/
def quitCurrentRoom (w : World) (a : Addr) : Option World :=
  if (w.clients a).room.length > 0 then
    match w.rooms (w.clients a).room with
    | none => none
    | some r =>
      some ⟨w.clients,
        Function.update w.rooms (w.clients a).room (some ⟨r.members.erase a⟩),
        w.closed⟩
  else some w

/-- Result of one pass through the loop body. -/
structure Step where
  world : World
  out : Out
  /-- whether the loop goes on: `false` after `break loop` -/
  running : Bool

/-- The body of the loop of `startSender` for one line `msg` read by the client at `a`
(the `switch` on `msgArgs[0]`). -/
def handleLine (w : World) (a : Addr) (msg : String) : Option Step :=
  match strings.Split msg ' ' with
  | [] => none
  | cmd :: args =>
    if cmd = "/nick" then
      if args.length + 1 < 2 then
        some ⟨w, sendMsgToClient a "usage: /nick <name>", true⟩
      else
        let name := strings.Join args " "
        some ⟨⟨Function.update w.clients a ⟨name, (w.clients a).room⟩, w.rooms, w.closed⟩,
          sendMsgToClient a ("all right, I will call you " ++ name), true⟩
    else if cmd = "/join" then
      if args.length + 1 < 2 then
        some ⟨w, sendMsgToClient a "usage: /join <room>", true⟩
      else
        match quitCurrentRoom w a with
        | none => none
        | some w₁ =>
          let rn := strings.Join args " "
          let c : client := ⟨(w₁.clients a).name, rn⟩
          let rooms₁ :=
            match w₁.rooms rn with
            | some _ => w₁.rooms
            | none => Function.update w₁.rooms rn (some ⟨∅⟩)
          match rooms₁ rn with
          | none => none
          | some r =>
            some ⟨⟨Function.update w₁.clients a c,
                Function.update rooms₁ rn (some ⟨insert a r.members⟩), w₁.closed⟩,
              (r.announce a ("> " ++ c.name ++ " joined the room")).append
                (sendMsgToClient a ("welcome to " ++ rn)),
              true⟩
    else if cmd = "/say" then
      if args.length + 1 < 2 then
        some ⟨w, sendMsgToClient a "usage: /say <msg>", true⟩
      else if (w.clients a).room.length = 0 then
        some ⟨w, sendMsgToClient a "join a room first to send a message", true⟩
      else
        match w.rooms (w.clients a).room with
        | none => none
        | some r =>
          some ⟨w,
            r.announce a ("> " ++ (w.clients a).name ++ " says: " ++ strings.Join args " "),
            true⟩
    else if cmd = "/quit" then
      match quitCurrentRoom w a with
      | none => none
      | some w₁ =>
        some ⟨⟨w₁.clients, w₁.rooms, Function.update w₁.closed a true⟩,
          sendMsgToClient a "Sad to see you go =(", false⟩
    else
      some ⟨w, sendMsgToClient a usage, true⟩

/-- The `client` that `handleConnection` builds for a new connection (`room` is left
at its zero value), and the greeting it sends. -/
def handleConnection (a : Addr) : client × Out :=
  (⟨"anonymous", ""⟩, sendMsgToClient a ("\nWelcome to TelnetChat!\n" ++ usage))

/-- One iteration of the loop of `startSender`: `input` is what `readClientInput`
returned.  A read error is logged and the loop goes to its next iteration. -/
def loopBody (w : World) (a : Addr) (input : Except String String) : Option Step :=
  match input with
  | .error _ => some ⟨w, silent, true⟩
  | .ok msg => handleLine w a msg

/-- State at start-up: `rooms = make(map[string]*room)`, no connection closed; a
connection that has not sent anything yet has the record `handleConnection` gives it. -/
def World.init : World :=
  ⟨fun a => (handleConnection a).1, fun _ => none, fun _ => false⟩

/-- Loop iterations of several sessions, one at a time, in the order of the list.  An
entry for a connection whose loop has ended (`break loop` after `conn.Close()`) is
never read. -/
def run : World → List (Addr × Except String String) → Option (World × Out)
  | w, [] => some (w, silent)
  | w, (a, input) :: rest =>
    if w.closed a then run w rest
    else
      match loopBody w a input with
      | none => none
      | some s =>
        match run s.world rest with
        | none => none
        | some (w₁, o) => some (w₁, s.out.append o)

/-- States the server can be in: the start-up state, and any state after one more
loop iteration of a session whose loop has not ended. -/
inductive Reachable : World → Prop
  | init : Reachable World.init
  | step {w : World} {a : Addr} {input : Except String String} {s : Step} :
      Reachable w → w.closed a = false → loopBody w a input = some s → Reachable s.world

/-- Members of the room registered under `r` (none when no such room is registered). -/
def World.members (w : World) (r : String) : Finset Addr :=
  match w.rooms r with
  | none => ∅
  | some rm => rm.members

/-- World after the assignments of the `/join` branch, from the world `w₁` left by
`quitCurrentRoom`. -/
def joinWorld (w₁ : World) (a : Addr) (rn : String) : World :=
  ⟨Function.update w₁.clients a ⟨(w₁.clients a).name, rn⟩,
    Function.update w₁.rooms rn (some ⟨insert a (w₁.members rn)⟩), w₁.closed⟩

/-- Writes of the `/join` branch, from the world `w₁` left by `quitCurrentRoom`. -/
def joinOut (w₁ : World) (a : Addr) (rn : String) : Out :=
  (room.announce ⟨w₁.members rn⟩ a ("> " ++ (w₁.clients a).name ++ " joined the room")).append
    (sendMsgToClient a ("welcome to " ++ rn))

/-- The command token `msgArgs[0]` of a line. -/
def firstToken (line : String) : String :=
  (strings.Split line ' ').headD ""

/-- Every non-empty `room` field names a registered room. -/
def Registered (w : World) : Prop :=
  ∀ a, (w.clients a).room ≠ "" → ∃ r, w.rooms (w.clients a).room = some r

/-- State after the iterations `evs`, starting from `w` (`w` itself if the run stops
on a nil dereference). -/
def runW (w : World) (evs : List (Addr × Except String String)) : World :=
  match run w evs with
  | some p => p.1
  | none => w

/-- A state with two sessions in room `lobby`: connection 1 under the name
`anonymous`, connection 2 under the name `Bob`. -/
def lobbyWorld : World :=
  runW World.init [(1, .ok "/join lobby"), (2, .ok "/nick Bob"), (2, .ok "/join lobby")]

/-- For room names other than the empty string: membership and the `room` field of an
open connection agree. -/
def MemberIffCurrent (w : World) : Prop :=
  ∀ a r, r ≠ "" → (a ∈ w.members r ↔ ((w.clients a).room = r ∧ w.closed a = false))

/-- Go `strings.Trim(s, cutset)`: `s` without the leading and trailing characters that
occur in `cutset`. -/
def strings.Trim (s cutset : String) : String :=
  ⟨((s.data.dropWhile (fun c => decide (c ∈ cutset.data))).reverse.dropWhile
    (fun c => decide (c ∈ cutset.data))).reverse⟩

/-- Method `readClientInput`: `raw` is what `bufio.NewReader(c.conn).ReadString` gave,
an error or the bytes up to the line feed. -/
def readClientInput (raw : Except String String) : Except String String :=
  match raw with
  | .error e => .error e
  | .ok s => .ok (strings.Trim s "\r\n")

/-- The argument string of a line: `strings.Join(msgArgs[1:len(msgArgs)], " ")`. -/
def argString (line : String) : String :=
  strings.Join (strings.Split line ' ').tail " "

/-- The part of a line after its first space character (empty if it has none). -/
def afterFirstSpace (line : String) : String :=
  ⟨(line.data.dropWhile (fun c => c != ' ')).drop 1⟩

/-- Pieces of a character list cut at every character that satisfies `p`. -/
def splitWhere (p : Char → Bool) : List Char → List (List Char)
  | [] => [[]]
  | c :: cs =>
    if p c then [] :: splitWhere p cs
    else
      match splitWhere p cs with
      | [] => [[c]]
      | q :: qs => (c :: q) :: qs

/-- The whitespace-separated tokens of a line, as the specification words the split:
the non-empty pieces between whitespace characters. -/
def specTokens (line : String) : List String :=
  ((splitWhere Char.isWhitespace line.data).filter (fun t => !t.isEmpty)).map String.mk

/-- The argument string as the specification words it: the tokens after the command
token, joined with single spaces. -/
def specArgString (line : String) : String :=
  strings.Join (specTokens line).tail " "

/-- Calls of `conn.Write`, per connection: all of them, and those that returned no
error. -/
structure Writes where
  attempted : Out
  delivered : Out

/-- First the writes of `x`, then those of `y`. -/
def Writes.append (x y : Writes) : Writes :=
  ⟨x.attempted.append y.attempted, x.delivered.append y.delivered⟩

/-- Method `sendMsgToClient` when `conn.Write` fails on the connections in `fails`:
the write is attempted; on an error the error is logged and nothing else happens (the
method returns nothing to its caller). -/
def sendMsgToClientOn (fails : Addr → Bool) (a : Addr) (msg : String) : Writes :=
  ⟨sendMsgToClient a msg, if fails a then silent else sendMsgToClient a msg⟩

/-- The loop of `announce` over the members in the order `order` in which `range`
visits them, when `conn.Write` fails on the connections in `fails`. -/
def announceOn (fails : Addr → Bool) (sender : Addr) (msg : String) : List Addr → Writes
  | [] => ⟨silent, silent⟩
  | c :: rest =>
    if sender ≠ c then
      (sendMsgToClientOn fails c msg).append (announceOn fails sender msg rest)
    else announceOn fails sender msg rest

/-! ## Splitting and joining -/

namespace strings

theorem splitChars_ne_nil (sep : Char) (cs : List Char) : splitChars sep cs ≠ [] := by
  induction cs with
  | nil => simp [splitChars]
  | cons c cs ih =>
    unfold splitChars
    split
    · simp
    · split <;> simp

theorem splitChars_append_sep (sep : Char) (p r : List Char) (h : sep ∉ p) :
    splitChars sep (p ++ sep :: r) = p :: splitChars sep r := by
  induction p with
  | nil => simp [splitChars]
  | cons c p ih =>
    have hc : ¬ c = sep := fun e => h (by simp [e])
    have hp : sep ∉ p := fun e => h (by simp [e])
    simp [splitChars, hc, ih hp]

theorem splitChars_of_not_mem (sep : Char) (p : List Char) (h : sep ∉ p) :
    splitChars sep p = [p] := by
  induction p with
  | nil => simp [splitChars]
  | cons c p ih =>
    have hc : ¬ c = sep := fun e => h (by simp [e])
    have hp : sep ∉ p := fun e => h (by simp [e])
    simp [splitChars, hc, ih hp]

theorem Split_ne_nil (s : String) (sep : Char) : Split s sep ≠ [] := by
  simp [Split, splitChars_ne_nil]

/-- A line `cmd ++ " " ++ rest` whose `cmd` has no space splits into `cmd` and the
pieces of `rest`. -/
theorem Split_cmd_space (cmd rest : String) (h : ' ' ∉ cmd.data) :
    Split (cmd ++ " " ++ rest) ' ' = cmd :: Split rest ' ' := by
  have e : (cmd ++ " " ++ rest).data = cmd.data ++ ' ' :: rest.data := by
    simp [String.data_append]
  simp [Split, e, splitChars_append_sep _ _ _ h]

/-- A line without a space is its own single piece. -/
theorem Split_of_no_space (cmd : String) (h : ' ' ∉ cmd.data) :
    Split cmd ' ' = [cmd] := by
  simp [Split, splitChars_of_not_mem _ _ h]

theorem Join_cons_char (c : Char) (p : List Char) (rest : List String) (sep : String) :
    Join (String.mk (c :: p) :: rest) sep
      = String.mk (c :: (Join (String.mk p :: rest) sep).data) := by
  cases rest with
  | nil => simp [Join]
  | cons y ys =>
    simp only [Join]
    apply String.ext
    simp [String.data_append]

theorem Join_splitChars (cs : List Char) :
    (Join ((splitChars ' ' cs).map String.mk) " ").data = cs := by
  induction cs with
  | nil => simp [splitChars, Join]
  | cons c cs ih =>
    by_cases hc : c = ' '
    · subst hc
      obtain ⟨q, qs, hq⟩ := List.exists_cons_of_ne_nil (splitChars_ne_nil ' ' cs)
      rw [hq] at ih
      simp only [splitChars, if_true, hq, List.map_cons, Join]
      simp only [List.map_cons] at ih
      simp [String.data_append, ih]
    · obtain ⟨q, qs, hq⟩ := List.exists_cons_of_ne_nil (splitChars_ne_nil ' ' cs)
      rw [hq] at ih
      simp only [splitChars, hc, if_false, hq, List.map_cons]
      simp only [List.map_cons] at ih
      rw [Join_cons_char]
      simp [ih]

/-- Joining the pieces of a string with the separator gives the string back. -/
theorem Join_Split (s : String) : Join (Split s ' ') " " = s := by
  apply String.ext
  exact Join_splitChars s.data

end strings

theorem length_eq_zero_iff (s : String) : s.length = 0 ↔ s = "" := by
  constructor
  · intro h
    apply String.ext
    exact List.length_eq_zero.mp h
  · rintro rfl; rfl

theorem handleLine_say (w : World) (a : Addr) (msg : String) :
    handleLine w a ("/say " ++ msg) =
      if (w.clients a).room = "" then
        some ⟨w, sendMsgToClient a "join a room first to send a message", true⟩
      else
        match w.rooms (w.clients a).room with
        | none => none
        | some r =>
          some ⟨w, r.announce a ("> " ++ (w.clients a).name ++ " says: " ++ msg), true⟩ := by
  have e : "/say " ++ msg = "/say" ++ " " ++ msg := rfl
  have hs := strings.Split_cmd_space "/say" msg (by decide)
  obtain ⟨x, xs, hx⟩ := List.exists_cons_of_ne_nil (strings.Split_ne_nil msg ' ')
  have hj := strings.Join_Split msg
  rw [hx] at hs hj
  rw [e]
  unfold handleLine
  rw [hs]
  simp [hj, length_eq_zero_iff]

theorem handleLine_nick (w : World) (a : Addr) (name : String) :
    handleLine w a ("/nick " ++ name) =
      some ⟨⟨Function.update w.clients a ⟨name, (w.clients a).room⟩, w.rooms, w.closed⟩,
        sendMsgToClient a ("all right, I will call you " ++ name), true⟩ := by
  have e : "/nick " ++ name = "/nick" ++ " " ++ name := rfl
  have hs := strings.Split_cmd_space "/nick" name (by decide)
  obtain ⟨x, xs, hx⟩ := List.exists_cons_of_ne_nil (strings.Split_ne_nil name ' ')
  have hj := strings.Join_Split name
  rw [hx] at hs hj
  rw [e]
  unfold handleLine
  rw [hs]
  simp [hj]

theorem quitCurrentRoom_eq (w : World) (a : Addr) :
    quitCurrentRoom w a =
      if (w.clients a).room = "" then some w
      else
        match w.rooms (w.clients a).room with
        | none => none
        | some r =>
          some ⟨w.clients,
            Function.update w.rooms (w.clients a).room (some ⟨r.members.erase a⟩),
            w.closed⟩ := by
  unfold quitCurrentRoom
  by_cases h : (w.clients a).room = ""
  · simp [h]
  · have h' : 0 < (w.clients a).room.length :=
      Nat.pos_of_ne_zero (fun e => h ((length_eq_zero_iff _).mp e))
    simp [h, h']

theorem handleLine_join (w : World) (a : Addr) (rn : String) :
    handleLine w a ("/join " ++ rn) =
      match quitCurrentRoom w a with
      | none => none
      | some w₁ => some ⟨joinWorld w₁ a rn, joinOut w₁ a rn, true⟩ := by
  have e : "/join " ++ rn = "/join" ++ " " ++ rn := rfl
  have hs := strings.Split_cmd_space "/join" rn (by decide)
  obtain ⟨x, xs, hx⟩ := List.exists_cons_of_ne_nil (strings.Split_ne_nil rn ' ')
  have hj := strings.Join_Split rn
  rw [hx] at hs hj
  rw [e]
  unfold handleLine
  rw [hs]
  simp only [hj]
  cases hq : quitCurrentRoom w a with
  | none => simp
  | some w₁ =>
    cases hr : w₁.rooms rn with
    | none => simp [hr, joinWorld, joinOut, World.members]
    | some r => simp [hr, joinWorld, joinOut, World.members]

theorem handleLine_nick_usage (w : World) (a : Addr) :
    handleLine w a "/nick" = some ⟨w, sendMsgToClient a "usage: /nick <name>", true⟩ := rfl

theorem handleLine_join_usage (w : World) (a : Addr) :
    handleLine w a "/join" = some ⟨w, sendMsgToClient a "usage: /join <room>", true⟩ := rfl

theorem handleLine_say_usage (w : World) (a : Addr) :
    handleLine w a "/say" = some ⟨w, sendMsgToClient a "usage: /say <msg>", true⟩ := rfl

theorem handleLine_quit (w : World) (a : Addr) (line : String)
    (h : firstToken line = "/quit") :
    handleLine w a line =
      match quitCurrentRoom w a with
      | none => none
      | some w₁ =>
        some ⟨⟨w₁.clients, w₁.rooms, Function.update w₁.closed a true⟩,
          sendMsgToClient a "Sad to see you go =(", false⟩ := by
  obtain ⟨x, xs, hx⟩ := List.exists_cons_of_ne_nil (strings.Split_ne_nil line ' ')
  have hx' : x = "/quit" := by simpa [firstToken, hx] using h
  subst hx'
  unfold handleLine
  rw [hx]
  simp

theorem handleLine_other (w : World) (a : Addr) (line : String)
    (h₁ : firstToken line ≠ "/nick") (h₂ : firstToken line ≠ "/join")
    (h₃ : firstToken line ≠ "/say") (h₄ : firstToken line ≠ "/quit") :
    handleLine w a line = some ⟨w, sendMsgToClient a usage, true⟩ := by
  obtain ⟨x, xs, hx⟩ := List.exists_cons_of_ne_nil (strings.Split_ne_nil line ' ')
  simp only [firstToken, hx, List.headD_cons] at h₁ h₂ h₃ h₄
  unfold handleLine
  rw [hx]
  simp [h₁, h₂, h₃, h₄]

/-- Every line is of one of the eight shapes the `switch` tells apart. -/
theorem line_cases (line : String) :
    line = "/nick" ∨ line = "/join" ∨ line = "/say" ∨
    (∃ x, line = "/nick " ++ x) ∨ (∃ x, line = "/join " ++ x) ∨ (∃ x, line = "/say " ++ x) ∨
    firstToken line = "/quit" ∨
    (firstToken line ≠ "/nick" ∧ firstToken line ≠ "/join" ∧
      firstToken line ≠ "/say" ∧ firstToken line ≠ "/quit") := by
  obtain ⟨c, xs, hx⟩ := List.exists_cons_of_ne_nil (strings.Split_ne_nil line ' ')
  have hj := strings.Join_Split line
  have hf : firstToken line = c := by simp [firstToken, hx]
  rw [hx] at hj
  rw [hf]
  cases xs with
  | nil =>
    simp only [strings.Join] at hj
    subst hj
    by_cases h1 : c = "/nick"
    · exact Or.inl h1
    by_cases h2 : c = "/join"
    · exact Or.inr (Or.inl h2)
    by_cases h3 : c = "/say"
    · exact Or.inr (Or.inr (Or.inl h3))
    by_cases h4 : c = "/quit"
    · exact Or.inr (Or.inr (Or.inr (Or.inr (Or.inr (Or.inr (Or.inl h4))))))
    · exact Or.inr (Or.inr (Or.inr (Or.inr (Or.inr (Or.inr (Or.inr ⟨h1, h2, h3, h4⟩))))))
  | cons y ys =>
    simp only [strings.Join] at hj
    by_cases h1 : c = "/nick"
    · subst h1
      exact Or.inr (Or.inr (Or.inr (Or.inl ⟨_, hj.symm⟩)))
    by_cases h2 : c = "/join"
    · subst h2
      exact Or.inr (Or.inr (Or.inr (Or.inr (Or.inl ⟨_, hj.symm⟩))))
    by_cases h3 : c = "/say"
    · subst h3
      exact Or.inr (Or.inr (Or.inr (Or.inr (Or.inr (Or.inl ⟨_, hj.symm⟩)))))
    by_cases h4 : c = "/quit"
    · exact Or.inr (Or.inr (Or.inr (Or.inr (Or.inr (Or.inr (Or.inl h4))))))
    · exact Or.inr (Or.inr (Or.inr (Or.inr (Or.inr (Or.inr (Or.inr ⟨h1, h2, h3, h4⟩))))))

theorem quitCurrentRoom_some (w : World) (a : Addr) (h : Registered w) :
    ∃ w₁, quitCurrentRoom w a = some w₁ := by
  rw [quitCurrentRoom_eq]
  by_cases hr : (w.clients a).room = ""
  · exact ⟨w, by simp [hr]⟩
  · obtain ⟨r, hr'⟩ := h a hr
    simp [hr, hr']

theorem quitCurrentRoom_fields (w w₁ : World) (a : Addr) (h : quitCurrentRoom w a = some w₁) :
    w₁.clients = w.clients ∧ w₁.closed = w.closed ∧
      ∀ r, w₁.members r =
        if r = (w.clients a).room ∧ r ≠ "" then (w.members r).erase a else w.members r := by
  rw [quitCurrentRoom_eq] at h
  by_cases hr : (w.clients a).room = ""
  · simp only [hr, if_true, Option.some.injEq] at h
    subst h
    refine ⟨rfl, rfl, fun r => ?_⟩
    by_cases e : r = (w.clients a).room
    · simp [e, hr]
    · simp [e]
  · cases hq : w.rooms (w.clients a).room with
    | none => simp [hr, hq] at h
    | some rm =>
      simp only [hr, hq, if_false, Option.some.injEq] at h
      subst h
      refine ⟨rfl, rfl, fun r => ?_⟩
      by_cases e : r = (w.clients a).room
      · subst e
        simp [World.members, hq, hr]
      · simp [World.members, e, Function.update_noteq e]

theorem quitCurrentRoom_rooms_some (w w₁ : World) (a : Addr)
    (h : quitCurrentRoom w a = some w₁) (r : String) :
    (∃ x, w₁.rooms r = some x) ↔ ∃ x, w.rooms r = some x := by
  rw [quitCurrentRoom_eq] at h
  by_cases hr : (w.clients a).room = ""
  · simp only [hr, if_true, Option.some.injEq] at h
    subst h
    rfl
  · cases hq : w.rooms (w.clients a).room with
    | none => simp [hr, hq] at h
    | some rm =>
      simp only [hr, hq, if_false, Option.some.injEq] at h
      subst h
      by_cases e : r = (w.clients a).room
      · subst e
        simp [hq]
      · simp [Function.update_noteq e]

theorem Registered_quit (w w₁ : World) (a : Addr) (h : Registered w)
    (hq : quitCurrentRoom w a = some w₁) : Registered w₁ := by
  intro b hb
  obtain ⟨hc, -, -⟩ := quitCurrentRoom_fields w w₁ a hq
  rw [hc] at hb ⊢
  exact (quitCurrentRoom_rooms_some w w₁ a hq _).mpr (h b hb)

theorem Registered_join (w₁ : World) (a : Addr) (rn : String) (h : Registered w₁) :
    Registered (joinWorld w₁ a rn) := by
  intro b hb
  by_cases e : b = a
  · subst e
    simp [joinWorld]
  · simp only [joinWorld, Function.update_noteq e] at hb ⊢
    by_cases e' : (w₁.clients b).room = rn
    · rw [e', Function.update_same]
      exact ⟨_, rfl⟩
    · rw [Function.update_noteq e']
      exact h b hb

/-- A line read in a state where every current room is registered is processed
without a nil dereference, and leaves every current room registered. -/
theorem handleLine_registered (w : World) (a : Addr) (line : String) (h : Registered w) :
    ∃ s, handleLine w a line = some s ∧ Registered s.world := by
  obtain ⟨w₁, hq⟩ := quitCurrentRoom_some w a h
  have hw₁ := Registered_quit w w₁ a h hq
  rcases line_cases line with e | e | e | ⟨x, e⟩ | ⟨x, e⟩ | ⟨x, e⟩ | e | ⟨e₁, e₂, e₃, e₄⟩
  · exact ⟨_, e ▸ handleLine_nick_usage w a, h⟩
  · exact ⟨_, e ▸ handleLine_join_usage w a, h⟩
  · exact ⟨_, e ▸ handleLine_say_usage w a, h⟩
  · refine ⟨_, e ▸ handleLine_nick w a x, ?_⟩
    intro b hb
    by_cases eb : b = a
    · subst eb
      simp only [Function.update_same] at hb ⊢
      exact h b hb
    · simp only [Function.update_noteq eb] at hb ⊢
      exact h b hb
  · refine ⟨⟨joinWorld w₁ a x, joinOut w₁ a x, true⟩, ?_, Registered_join w₁ a x hw₁⟩
    rw [e, handleLine_join, hq]
  · subst e
    rw [handleLine_say]
    by_cases hr : (w.clients a).room = ""
    · rw [if_pos hr]
      exact ⟨_, rfl, h⟩
    · obtain ⟨r, hr'⟩ := h a hr
      rw [if_neg hr, hr']
      exact ⟨_, rfl, h⟩
  · refine ⟨_, by rw [handleLine_quit w a line e, hq], ?_⟩
    exact hw₁
  · exact ⟨_, handleLine_other w a line e₁ e₂ e₃ e₄, h⟩

theorem Registered_init : Registered World.init := by
  intro a ha
  exact absurd rfl ha

theorem loopBody_registered (w : World) (a : Addr) (input : Except String String)
    (h : Registered w) : ∃ s, loopBody w a input = some s ∧ Registered s.world := by
  cases input with
  | error e => exact ⟨_, rfl, h⟩
  | ok line => exact handleLine_registered w a line h

theorem Reachable.registered {w : World} (h : Reachable w) : Registered w := by
  induction h with
  | init => exact Registered_init
  | @step w a input s _ _ hs ih =>
    obtain ⟨s', hs', hr⟩ := loopBody_registered w a input ih
    rw [hs] at hs'
    cases hs'
    exact hr


theorem run_registered (evs : List (Addr × Except String String)) :
    ∀ w, Registered w → ∃ o, run w evs = some (runW w evs, o) ∧ Registered (runW w evs) := by
  induction evs with
  | nil => intro w h; exact ⟨silent, rfl, h⟩
  | cons ev evs ih =>
    intro w h
    obtain ⟨a, input⟩ := ev
    by_cases hc : w.closed a = true
    · obtain ⟨o, ho, hr⟩ := ih w h
      have e : run w ((a, input) :: evs) = run w evs := by simp [run, hc]
      have e' : runW w ((a, input) :: evs) = runW w evs := by simp [runW, e]
      rw [e, e']
      exact ⟨o, ho, hr⟩
    · obtain ⟨s, hs, hr⟩ := loopBody_registered w a input h
      obtain ⟨o, ho, hr'⟩ := ih s.world hr
      have e : run w ((a, input) :: evs) = some (runW s.world evs, s.out.append o) := by
        simp [run, hc, hs, ho]
      have e' : runW w ((a, input) :: evs) = runW s.world evs := by simp [runW, e]
      rw [e, e']
      exact ⟨_, rfl, hr'⟩

theorem runW_reachable (evs : List (Addr × Except String String)) :
    ∀ w, Reachable w → Reachable (runW w evs) := by
  induction evs with
  | nil => intro w h; exact h
  | cons ev evs ih =>
    intro w h
    obtain ⟨a, input⟩ := ev
    by_cases hc : w.closed a = true
    · have e : run w ((a, input) :: evs) = run w evs := by simp [run, hc]
      have e' : runW w ((a, input) :: evs) = runW w evs := by simp [runW, e]
      rw [e']
      exact ih w h
    · obtain ⟨s, hs, hr⟩ := loopBody_registered w a input h.registered
      obtain ⟨o, ho, -⟩ := run_registered evs s.world hr
      have e : run w ((a, input) :: evs) = some (runW s.world evs, s.out.append o) := by
        simp [run, hc, hs, ho]
      have e' : runW w ((a, input) :: evs) = runW s.world evs := by simp [runW, e]
      rw [e']
      exact ih s.world (Reachable.step h (by simpa using hc) hs)

/-! ## Broadcast of `/say` -/

/-- C1: in a reachable state, when session `A` has a current room (its `room` field is
not empty), the line `/say <msg>` is processed, and what it writes is: the line
`> {name of A} says: {msg}` exactly once to every member of that room other than `A`,
and nothing to `A` (nor to anyone else). -/
theorem say_delivers_to_other_members (w : World) (A : Addr) (msg : String)
    (hw : Reachable w) (hr : (w.clients A).room ≠ "") :
    ∃ s, handleLine w A ("/say " ++ msg) = some s ∧ s.out A = [] ∧
      ∀ b, s.out b =
        if b ∈ w.members (w.clients A).room ∧ b ≠ A then
          ["> " ++ (w.clients A).name ++ " says: " ++ msg ++ "\n"]
        else [] := by
  obtain ⟨r, hreg⟩ := hw.registered A hr
  refine ⟨⟨w, r.announce A ("> " ++ (w.clients A).name ++ " says: " ++ msg), true⟩, ?_, ?_, ?_⟩
  · rw [handleLine_say, if_neg hr, hreg]
  · simp [room.announce]
  · intro b
    have hm : w.members (w.clients A).room = r.members := by simp [World.members, hreg]
    by_cases hb : b = A
    · subst hb
      simp [room.announce]
    · have hb' : ¬ A = b := fun e => hb e.symm
      simp [room.announce, hm, hb, hb']

/-- C1, on an instance: in `lobbyWorld`, `/say hello` from Bob (connection 2) writes
`> Bob says: hello` to connection 1 and nothing to connection 2. -/
theorem say_delivers_to_other_members_witness :
    (lobbyWorld.clients 2).room ≠ "" ∧
    ∃ s, handleLine lobbyWorld 2 ("/say " ++ "hello") = some s ∧ s.out 2 = [] ∧
      s.out 1 = ["> Bob says: hello\n"] := by
  refine ⟨by decide, ?_⟩
  obtain ⟨s, hs, h2, hb⟩ :=
    say_delivers_to_other_members lobbyWorld 2 "hello"
      (runW_reachable _ _ Reachable.init) (by decide)
  refine ⟨s, hs, h2, ?_⟩
  rw [hb 1]
  decide

/-! ## Usage replies, help text, `/nick` -/

theorem Split_eq_singleton_iff (line cmd : String) (h : ' ' ∉ cmd.data) :
    strings.Split line ' ' = [cmd] ↔ line = cmd := by
  constructor
  · intro e
    have hj := strings.Join_Split line
    rw [e] at hj
    exact hj.symm
  · rintro rfl
    exact strings.Split_of_no_space line h

/-- C5 as stated fails on `/nick ` (the command and one space): the line has no
argument token, yet it is not answered with the usage string; the reply is
`all right, I will call you ` and the display name changes from `anonymous` to the
empty string. -/
theorem nick_space_is_no_usage_error :
    (specTokens "/nick ").tail = [] ∧
    ∃ s, handleLine World.init 1 "/nick " = some s ∧
      s.out 1 = ["all right, I will call you \n"] ∧
      s.out 1 ≠ ["usage: /nick <name>\n"] ∧
      (World.init.clients 1).name = "anonymous" ∧ (s.world.clients 1).name = "" :=
  ⟨by decide, _, rfl, by decide, by decide, by decide, by decide⟩

/-- C5, amended: the line that is the command token `/nick`, `/join` or `/say` alone
(these are the only lines that split at `" "` into the command token and nothing
else, so that `msgArgs` has fewer than two elements) is answered with that command's
usage string, written to the sender only, and leaves the whole state (names, current
rooms, registry, member sets) as it was. -/
theorem bare_command_usage (w : World) (a : Addr) (line : String) :
    (strings.Split line ' ' = ["/nick"] ↔ line = "/nick") ∧
    (strings.Split line ' ' = ["/join"] ↔ line = "/join") ∧
    (strings.Split line ' ' = ["/say"] ↔ line = "/say") ∧
    handleLine w a "/nick" = some ⟨w, sendMsgToClient a "usage: /nick <name>", true⟩ ∧
    handleLine w a "/join" = some ⟨w, sendMsgToClient a "usage: /join <room>", true⟩ ∧
    handleLine w a "/say" = some ⟨w, sendMsgToClient a "usage: /say <msg>", true⟩ :=
  ⟨Split_eq_singleton_iff line "/nick" (by decide),
    Split_eq_singleton_iff line "/join" (by decide),
    Split_eq_singleton_iff line "/say" (by decide),
    handleLine_nick_usage w a, handleLine_join_usage w a, handleLine_say_usage w a⟩

/-- C6: a line whose first token is none of `/nick`, `/join`, `/say`, `/quit` (compared
as whole strings, case-sensitively) is answered with the help text `usage`, written to
the sender only, and leaves the whole state as it was. -/
theorem unknown_command_help (w : World) (a : Addr) (line : String)
    (h₁ : firstToken line ≠ "/nick") (h₂ : firstToken line ≠ "/join")
    (h₃ : firstToken line ≠ "/say") (h₄ : firstToken line ≠ "/quit") :
    handleLine w a line = some ⟨w, sendMsgToClient a usage, true⟩ :=
  handleLine_other w a line h₁ h₂ h₃ h₄

/-- C6, on instances: an unknown command, a known command in upper case, and an
abbreviated command. -/
theorem unknown_command_help_witness :
    handleLine lobbyWorld 2 "/foo" = some ⟨lobbyWorld, sendMsgToClient 2 usage, true⟩ ∧
    handleLine lobbyWorld 2 "/NICK Bob" = some ⟨lobbyWorld, sendMsgToClient 2 usage, true⟩ ∧
    handleLine lobbyWorld 2 "/sa hi" = some ⟨lobbyWorld, sendMsgToClient 2 usage, true⟩ :=
  ⟨unknown_command_help lobbyWorld 2 "/foo" (by decide) (by decide) (by decide) (by decide),
   unknown_command_help lobbyWorld 2 "/NICK Bob" (by decide) (by decide) (by decide) (by decide),
   unknown_command_help lobbyWorld 2 "/sa hi" (by decide) (by decide) (by decide) (by decide)⟩

/-- C7: the line `/nick <name>` sets the sender's display name to `<name>`, keeps the
sender's current room, every other client record, the registry with all member sets
and the closed connections, and writes `all right, I will call you <name>` to the
sender only. -/
theorem nick_sets_name (w : World) (a : Addr) (name : String) :
    handleLine w a ("/nick " ++ name) =
      some ⟨⟨Function.update w.clients a ⟨name, (w.clients a).room⟩, w.rooms, w.closed⟩,
        sendMsgToClient a ("all right, I will call you " ++ name), true⟩ :=
  handleLine_nick w a name

/-! ## `/join` -/

theorem joinOut_apply (w w₁ : World) (a b : Addr) (rn : String)
    (hq : quitCurrentRoom w a = some w₁) :
    joinOut w₁ a rn b =
      if b = a then ["welcome to " ++ rn ++ "\n"]
      else if b ∈ w.members rn then ["> " ++ (w.clients a).name ++ " joined the room" ++ "\n"]
      else [] := by
  obtain ⟨hc, -, hm⟩ := quitCurrentRoom_fields w w₁ a hq
  by_cases hb : b = a
  · subst hb
    simp [joinOut, Out.append, room.announce, sendMsgToClient]
  · have hb' : ¬ a = b := fun e => hb e.symm
    have hmem : b ∈ w₁.members rn ↔ b ∈ w.members rn := by
      rw [hm rn]
      split
      · simp [Finset.mem_erase, hb]
      · rfl
    by_cases hin : b ∈ w.members rn
    · simp [joinOut, Out.append, room.announce, sendMsgToClient, hb, hb', hmem, hin, hc]
    · simp [joinOut, Out.append, room.announce, sendMsgToClient, hb, hmem, hin]

theorem joinWorld_members_self (w₁ : World) (a : Addr) (rn : String) :
    (joinWorld w₁ a rn).members rn = insert a (w₁.members rn) := by
  simp [joinWorld, World.members]

/-- C9: in a reachable state, the line `/join <room>` from a session `c` named `n` is
processed; it writes `welcome to <room>` to `c`, `> n joined the room` exactly once to
every member of `<room>` other than `c`, and nothing else; afterwards `<room>` is
registered (created if it was missing), `c` is in its member set, and `<room>` is the
`room` field of `c`. -/
theorem join_effects (w : World) (c : Addr) (rn : String) (hw : Reachable w) :
    ∃ s, handleLine w c ("/join " ++ rn) = some s ∧ s.running = true ∧
      (∀ b, s.out b =
        if b = c then ["welcome to " ++ rn ++ "\n"]
        else if b ∈ w.members rn then
          ["> " ++ (w.clients c).name ++ " joined the room" ++ "\n"]
        else []) ∧
      (∃ r, s.world.rooms rn = some r ∧ c ∈ r.members) ∧
      (s.world.clients c).room = rn ∧ (s.world.clients c).name = (w.clients c).name := by
  obtain ⟨w₁, hq⟩ := quitCurrentRoom_some w c hw.registered
  obtain ⟨hc, -, -⟩ := quitCurrentRoom_fields w w₁ c hq
  refine ⟨⟨joinWorld w₁ c rn, joinOut w₁ c rn, true⟩, ?_, rfl, ?_, ?_, ?_, ?_⟩
  · rw [handleLine_join, hq]
  · intro b
    exact joinOut_apply w w₁ c b rn hq
  · exact ⟨⟨insert c (w₁.members rn)⟩, by simp [joinWorld], by simp⟩
  · simp [joinWorld]
  · simp [joinWorld, hc]

/-- C9, on an instance: a third connection joins `lobby` in `lobbyWorld`. -/
theorem join_effects_witness :
    ∃ s, handleLine lobbyWorld 3 ("/join " ++ "lobby") = some s ∧
      s.out 3 = ["welcome to lobby\n"] ∧ s.out 1 = ["> anonymous joined the room\n"] ∧
      s.out 2 = ["> anonymous joined the room\n"] ∧ s.out 4 = [] ∧
      (s.world.clients 3).room = "lobby" := by
  obtain ⟨s, hs, -, ho, -, hr, -⟩ :=
    join_effects lobbyWorld 3 "lobby" (runW_reachable _ _ Reachable.init)
  refine ⟨s, hs, ?_, ?_, ?_, ?_, hr⟩
  · rw [ho 3]; decide
  · rw [ho 1]; decide
  · rw [ho 2]; decide
  · rw [ho 4]; decide

theorem World.ext_fields {w w' : World} (h₁ : w.clients = w'.clients)
    (h₂ : w.rooms = w'.rooms) (h₃ : w.closed = w'.closed) : w = w' := by
  cases w; cases w'; simp_all

theorem joinWorld_idem (w₁ w₂ : World) (a : Addr) (rn : String)
    (hq : quitCurrentRoom (joinWorld w₁ a rn) a = some w₂) :
    joinWorld w₂ a rn = joinWorld w₁ a rn := by
  obtain ⟨hc, hcl, hm⟩ := quitCurrentRoom_fields _ w₂ a hq
  have hmem : insert a (w₂.members rn) = insert a (w₁.members rn) := by
    rw [hm rn, joinWorld_members_self]
    split
    · rw [Finset.insert_erase (Finset.mem_insert_self _ _)]
    · simp
  have hrooms : Function.update w₂.rooms rn (some ⟨insert a (w₁.members rn)⟩)
      = Function.update w₁.rooms rn (some ⟨insert a (w₁.members rn)⟩) := by
    rw [quitCurrentRoom_eq] at hq
    by_cases hr : ((joinWorld w₁ a rn).clients a).room = ""
    · simp only [hr, if_true, Option.some.injEq] at hq
      subst hq
      simp [joinWorld]
    · have hrn : ((joinWorld w₁ a rn).clients a).room = rn := by simp [joinWorld]
      rw [hrn] at hq hr
      have hl : (joinWorld w₁ a rn).rooms rn = some ⟨insert a (w₁.members rn)⟩ := by
        simp [joinWorld]
      simp only [hr, hl, if_false, Option.some.injEq] at hq
      subst hq
      simp [joinWorld]
  apply World.ext_fields
  · show Function.update w₂.clients a _ = Function.update w₁.clients a _
    rw [hc]
    simp [joinWorld]
  · show Function.update w₂.rooms rn _ = Function.update w₁.rooms rn _
    rw [hmem, hrooms]
  · exact hcl

/-- C10: in a reachable state, processing `/join r` twice in a row from the same
session gives the same state (names, current rooms, registry, member sets, closed
connections) as processing it once, and the session is in the member set of `r`; the
second processing writes the join announcement and the welcome again. -/
theorem join_twice_same_state (w : World) (a : Addr) (r : String) (hw : Reachable w) :
    ∃ s₁ s₂, handleLine w a ("/join " ++ r) = some s₁ ∧
      handleLine s₁.world a ("/join " ++ r) = some s₂ ∧
      s₂.world = s₁.world ∧ a ∈ s₂.world.members r ∧ s₂.out = s₁.out := by
  obtain ⟨w₁, hq⟩ := quitCurrentRoom_some w a hw.registered
  have hreg₁ : Registered (joinWorld w₁ a r) :=
    Registered_join w₁ a r (Registered_quit w w₁ a hw.registered hq)
  obtain ⟨w₂, hq₂⟩ := quitCurrentRoom_some (joinWorld w₁ a r) a hreg₁
  have hid := joinWorld_idem w₁ w₂ a r hq₂
  obtain ⟨hc, -, hm⟩ := quitCurrentRoom_fields w w₁ a hq
  refine ⟨⟨joinWorld w₁ a r, joinOut w₁ a r, true⟩, ⟨joinWorld w₂ a r, joinOut w₂ a r, true⟩,
    ?_, ?_, hid, ?_, ?_⟩
  · rw [handleLine_join, hq]
  · rw [handleLine_join, hq₂]
  · show a ∈ (joinWorld w₂ a r).members r
    rw [joinWorld_members_self]
    exact Finset.mem_insert_self _ _
  · funext b
    show joinOut w₂ a r b = joinOut w₁ a r b
    rw [joinOut_apply _ w₂ a b r hq₂, joinOut_apply w w₁ a b r hq]
    by_cases hb : b = a
    · simp [hb]
    · have hmem : b ∈ (joinWorld w₁ a r).members r ↔ b ∈ w.members r := by
        rw [joinWorld_members_self, hm r]
        split <;> simp [hb]
      have hn : ((joinWorld w₁ a r).clients a).name = (w.clients a).name := by
        simp [joinWorld, hc]
      simp only [hb, if_false, hmem, hn]

/-- C10, on an instance: Bob joins `lobby` again, twice, in `lobbyWorld`. -/
theorem join_twice_same_state_witness :
    ∃ s₁ s₂, handleLine lobbyWorld 2 ("/join " ++ "lobby") = some s₁ ∧
      handleLine s₁.world 2 ("/join " ++ "lobby") = some s₂ ∧
      s₂.world = s₁.world ∧ 2 ∈ s₂.world.members "lobby" ∧ s₂.out = s₁.out :=
  join_twice_same_state lobbyWorld 2 "lobby" (runW_reachable _ _ Reachable.init)

/-! ## Runs -/

theorem runW_nil (w : World) : runW w [] = w := rfl

theorem runW_cons_closed (w : World) (a : Addr) (input : Except String String)
    (evs : List (Addr × Except String String)) (hc : w.closed a = true) :
    runW w ((a, input) :: evs) = runW w evs := by
  simp [runW, run, hc]

theorem runW_cons_open (w : World) (a : Addr) (input : Except String String)
    (evs : List (Addr × Except String String)) (s : Step) (hr : Registered w)
    (hc : w.closed a = false) (hs : loopBody w a input = some s) :
    runW w ((a, input) :: evs) = runW s.world evs := by
  obtain ⟨s', hs', hr'⟩ := loopBody_registered w a input hr
  rw [hs] at hs'
  cases hs'
  obtain ⟨o, ho, -⟩ := run_registered evs s.world hr'
  have e : run w ((a, input) :: evs) = some (runW s.world evs, s.out.append o) := by
    simp [run, hc, hs, ho]
  simp [runW, e]

/-- The loop of an open connection ends (`break loop`) exactly in the step that closes
the connection, so `run` may tell an ended loop by the closed connection. -/
theorem handleLine_running (w : World) (b : Addr) (line : String) (s : Step)
    (hc : w.closed b = false) (h : handleLine w b line = some s) :
    s.running = false ↔ s.world.closed b = true := by
  rcases line_cases line with e | e | e | ⟨x, e⟩ | ⟨x, e⟩ | ⟨x, e⟩ | e | ⟨e₁, e₂, e₃, e₄⟩
  · subst e; rw [handleLine_nick_usage] at h; cases h; simp [hc]
  · subst e; rw [handleLine_join_usage] at h; cases h; simp [hc]
  · subst e; rw [handleLine_say_usage] at h; cases h; simp [hc]
  · subst e; rw [handleLine_nick] at h; cases h; simp [hc]
  · subst e
    rw [handleLine_join] at h
    cases hq : quitCurrentRoom w b with
    | none => simp [hq] at h
    | some w₁ =>
      obtain ⟨-, hcl, -⟩ := quitCurrentRoom_fields w w₁ b hq
      simp only [hq, Option.some.injEq] at h
      subst h
      simp [joinWorld, hcl, hc]
  · subst e; rw [handleLine_say] at h
    split at h
    · cases h; simp [hc]
    · split at h
      · cases h
      · cases h; simp [hc]
  · rw [handleLine_quit w b line e] at h
    cases hq : quitCurrentRoom w b with
    | none => simp [hq] at h
    | some w₁ =>
      simp only [hq, Option.some.injEq] at h
      subst h
      simp
  · rw [handleLine_other w b line e₁ e₂ e₃ e₄] at h; cases h; simp [hc]

theorem firstToken_cmd_space (cmd rest : String) (h : ' ' ∉ cmd.data) :
    firstToken (cmd ++ " " ++ rest) = cmd := by
  simp [firstToken, strings.Split_cmd_space cmd rest h]

/-- Only a `/join` line of the session itself changes its `room` field. -/
theorem handleLine_room (w : World) (b A : Addr) (line : String) (s : Step)
    (h : handleLine w b line = some s) (hn : b = A → firstToken line ≠ "/join") :
    (s.world.clients A).room = (w.clients A).room := by
  rcases line_cases line with e | e | e | ⟨x, e⟩ | ⟨x, e⟩ | ⟨x, e⟩ | e | ⟨e₁, e₂, e₃, e₄⟩
  · subst e; rw [handleLine_nick_usage] at h; cases h; rfl
  · subst e; rw [handleLine_join_usage] at h; cases h; rfl
  · subst e; rw [handleLine_say_usage] at h; cases h; rfl
  · subst e; rw [handleLine_nick] at h; cases h
    by_cases hb : A = b
    · subst hb; simp
    · simp [Function.update_noteq hb]
  · subst e
    have hf : firstToken ("/join " ++ x) = "/join" :=
      firstToken_cmd_space "/join" x (by decide)
    have hb : A ≠ b := fun e => hn e.symm hf
    rw [handleLine_join] at h
    cases hq : quitCurrentRoom w b with
    | none => simp [hq] at h
    | some w₁ =>
      obtain ⟨hc, -, -⟩ := quitCurrentRoom_fields w w₁ b hq
      simp only [hq, Option.some.injEq] at h
      subst h
      simp [joinWorld, Function.update_noteq hb, hc]
  · subst e; rw [handleLine_say] at h
    split at h
    · cases h; rfl
    · split at h
      · cases h
      · cases h; rfl
  · rw [handleLine_quit w b line e] at h
    cases hq : quitCurrentRoom w b with
    | none => simp [hq] at h
    | some w₁ =>
      obtain ⟨hc, -, -⟩ := quitCurrentRoom_fields w w₁ b hq
      simp only [hq, Option.some.injEq] at h
      subst h
      simp [hc]
  · rw [handleLine_other w b line e₁ e₂ e₃ e₄] at h; cases h; rfl

theorem runW_room (A : Addr) (evs : List (Addr × Except String String)) :
    ∀ w, Registered w →
      (∀ line, (A, Except.ok line) ∈ evs → firstToken line ≠ "/join") →
      ((runW w evs).clients A).room = (w.clients A).room := by
  induction evs with
  | nil => intro w _ _; rfl
  | cons ev evs ih =>
    intro w hr hno
    obtain ⟨a, input⟩ := ev
    have hno' : ∀ line, (A, Except.ok line) ∈ evs → firstToken line ≠ "/join" :=
      fun line hl => hno line (List.mem_cons_of_mem _ hl)
    by_cases hc : w.closed a = true
    · rw [runW_cons_closed w a input evs hc]
      exact ih w hr hno'
    · have hc' : w.closed a = false := by simpa using hc
      obtain ⟨s, hs, hr'⟩ := loopBody_registered w a input hr
      rw [runW_cons_open w a input evs s hr hc' hs, ih s.world hr' hno']
      cases input with
      | error e => cases hs; rfl
      | ok line =>
        refine handleLine_room w a A line s hs (fun e => ?_)
        subst e
        exact hno line (List.mem_cons_self _ _)

/-! ## `/say` without a room -/

/-- C4 as stated fails on the bare line `/say`: a fresh session that sends it is
answered with the usage string, not with `join a room first to send a message`. -/
theorem say_without_argument_before_join :
    ∃ s, handleLine World.init 1 "/say" = some s ∧ s.out 1 = ["usage: /say <msg>\n"] ∧
      s.out 1 ≠ ["join a room first to send a message\n"] :=
  ⟨_, rfl, by decide, by decide⟩

/-- C4, amended: after any run from start-up in which session `A` has processed no
`/join` line, a line `/say <msg>` (with an argument) from `A` is answered with
`join a room first to send a message`, written to `A` only, and leaves the whole state
as it was. -/
theorem say_before_join (evs : List (Addr × Except String String)) (A : Addr) (msg : String)
    (hno : ∀ line, (A, Except.ok line) ∈ evs → firstToken line ≠ "/join") :
    handleLine (runW World.init evs) A ("/say " ++ msg) =
      some ⟨runW World.init evs,
        sendMsgToClient A "join a room first to send a message", true⟩ := by
  have hr : ((runW World.init evs).clients A).room = "" :=
    runW_room A evs World.init Registered_init hno
  rw [handleLine_say, if_pos hr]

/-- C4, amended, on an instance: connection 1 has only set its name while connection 2
sits in `lobby`. -/
theorem say_before_join_witness :
    handleLine (runW World.init [(2, .ok "/join lobby"), (1, .ok "/nick Ann")]) 1
        ("/say " ++ "hi") =
      some ⟨runW World.init [(2, .ok "/join lobby"), (1, .ok "/nick Ann")],
        sendMsgToClient 1 "join a room first to send a message", true⟩ :=
  say_before_join [(2, .ok "/join lobby"), (1, .ok "/nick Ann")] 1 "hi" (by
    intro line hl
    simp only [List.mem_cons, Prod.mk.injEq, Except.ok.injEq, List.mem_nil_iff, or_false] at hl
    rcases hl with ⟨h, -⟩ | ⟨-, h⟩
    · exact absurd h (by decide)
    · subst h; decide)

/-! ## Display names -/

/-- Only a `/nick <name>` line of the session itself changes its display name, and
then the new name is the text after `/nick `. -/
theorem handleLine_name (w : World) (b A : Addr) (line : String) (s : Step)
    (h : handleLine w b line = some s) :
    (s.world.clients A).name = (w.clients A).name ∨
      (b = A ∧ line = "/nick " ++ (s.world.clients A).name) := by
  rcases line_cases line with e | e | e | ⟨x, e⟩ | ⟨x, e⟩ | ⟨x, e⟩ | e | ⟨e₁, e₂, e₃, e₄⟩
  · subst e; rw [handleLine_nick_usage] at h; cases h; exact Or.inl rfl
  · subst e; rw [handleLine_join_usage] at h; cases h; exact Or.inl rfl
  · subst e; rw [handleLine_say_usage] at h; cases h; exact Or.inl rfl
  · subst e; rw [handleLine_nick] at h; cases h
    by_cases hb : A = b
    · subst hb
      exact Or.inr ⟨rfl, by simp⟩
    · exact Or.inl (by simp [Function.update_noteq hb])
  · subst e
    rw [handleLine_join] at h
    cases hq : quitCurrentRoom w b with
    | none => simp [hq] at h
    | some w₁ =>
      obtain ⟨hc, -, -⟩ := quitCurrentRoom_fields w w₁ b hq
      simp only [hq, Option.some.injEq] at h
      subst h
      left
      by_cases hb : A = b
      · subst hb; simp [joinWorld, hc]
      · simp [joinWorld, Function.update_noteq hb, hc]
  · subst e; rw [handleLine_say] at h
    split at h
    · cases h; exact Or.inl rfl
    · split at h
      · cases h
      · cases h; exact Or.inl rfl
  · rw [handleLine_quit w b line e] at h
    cases hq : quitCurrentRoom w b with
    | none => simp [hq] at h
    | some w₁ =>
      obtain ⟨hc, -, -⟩ := quitCurrentRoom_fields w w₁ b hq
      simp only [hq, Option.some.injEq] at h
      subst h
      exact Or.inl (by simp [hc])
  · rw [handleLine_other w b line e₁ e₂ e₃ e₄] at h; cases h; exact Or.inl rfl

theorem runW_name (A : Addr) (evs : List (Addr × Except String String)) :
    ∀ w, Registered w → (w.clients A).name ≠ "" →
      (∀ line, (A, Except.ok line) ∈ evs → line ≠ "/nick ") →
      ((runW w evs).clients A).name ≠ "" := by
  induction evs with
  | nil => intro w _ h _; exact h
  | cons ev evs ih =>
    intro w hr hname hno
    obtain ⟨a, input⟩ := ev
    have hno' : ∀ line, (A, Except.ok line) ∈ evs → line ≠ "/nick " :=
      fun line hl => hno line (List.mem_cons_of_mem _ hl)
    by_cases hc : w.closed a = true
    · rw [runW_cons_closed w a input evs hc]
      exact ih w hr hname hno'
    · have hc' : w.closed a = false := by simpa using hc
      obtain ⟨s, hs, hr'⟩ := loopBody_registered w a input hr
      rw [runW_cons_open w a input evs s hr hc' hs]
      refine ih s.world hr' ?_ hno'
      cases input with
      | error e => cases hs; exact hname
      | ok line =>
        rcases handleLine_name w a A line s hs with h | ⟨hb, hl⟩
        · rw [h]; exact hname
        · intro hempty
          subst hb
          rw [hempty] at hl
          exact hno line (List.mem_cons_self _ _) hl

/-- C8 as stated fails: the line `/nick ` (the command and one space) is accepted and
leaves the session, in a reachable state, with the empty display name. -/
theorem nick_space_gives_empty_name :
    Reachable (runW World.init [(1, .ok "/nick ")]) ∧
      ((runW World.init [(1, .ok "/nick ")]).clients 1).name = "" :=
  ⟨runW_reachable _ _ Reachable.init, by decide⟩

/-- C8, amended: the display name is not validated; after any run from start-up in
which the session has not sent the line `/nick ` (whose argument is the empty string),
its display name is not empty. -/
theorem name_nonempty_without_empty_nick (evs : List (Addr × Except String String))
    (a : Addr) (hno : ∀ line, (a, Except.ok line) ∈ evs → line ≠ "/nick ") :
    ((runW World.init evs).clients a).name ≠ "" :=
  runW_name a evs World.init Registered_init
    (show "anonymous" ≠ "" by decide) hno

/-- C8, amended, on an instance: two name changes, the second to a single space. -/
theorem name_nonempty_without_empty_nick_witness :
    ((runW World.init [(1, .ok "/nick Bob"), (1, .ok "/nick  ")]).clients 1).name ≠ "" :=
  name_nonempty_without_empty_nick [(1, .ok "/nick Bob"), (1, .ok "/nick  ")] 1 (by
    intro line hl
    simp only [List.mem_cons, Prod.mk.injEq, Except.ok.injEq, List.mem_nil_iff, or_false,
      true_and] at hl
    rcases hl with h | h <;> subst h <;> decide)

/-! ## Membership and the current room -/

theorem joinWorld_members (w₁ : World) (a : Addr) (rn r : String) :
    (joinWorld w₁ a rn).members r = if r = rn then insert a (w₁.members rn) else w₁.members r := by
  by_cases e : r = rn
  · subst e
    simp [joinWorld_members_self]
  · simp [joinWorld, World.members, Function.update_noteq e, e]

theorem MemberIffCurrent_quit (w w₁ : World) (b : Addr) (h : MemberIffCurrent w)
    (hq : quitCurrentRoom w b = some w₁) (a : Addr) (r : String) (hr : r ≠ "") :
    a ∈ w₁.members r ↔ (a ≠ b ∧ (w.clients a).room = r ∧ w.closed a = false) := by
  obtain ⟨-, -, hm⟩ := quitCurrentRoom_fields w w₁ b hq
  rw [hm r]
  by_cases ha : a = b
  · subst ha
    by_cases e : r = (w.clients a).room
    · simp [e.symm, hr]
    · have e' : ¬ (w.clients a).room = r := fun x => e x.symm
      simp [e, h a r hr, e']
  · by_cases e : r = (w.clients b).room
    · simp only [e.symm, hr, ne_eq, not_false_eq_true, and_self, if_true, Finset.mem_erase, ha,
        true_and]
      exact h a r hr
    · simp only [e, false_and, if_false, ne_eq, ha, not_false_eq_true, true_and]
      exact h a r hr

theorem handleLine_memberIffCurrent (w : World) (b : Addr) (line : String) (s : Step)
    (h : MemberIffCurrent w) (hc : w.closed b = false) (hs : handleLine w b line = some s) :
    MemberIffCurrent s.world := by
  rcases line_cases line with e | e | e | ⟨x, e⟩ | ⟨x, e⟩ | ⟨x, e⟩ | e | ⟨e₁, e₂, e₃, e₄⟩
  · subst e; rw [handleLine_nick_usage] at hs; cases hs; exact h
  · subst e; rw [handleLine_join_usage] at hs; cases hs; exact h
  · subst e; rw [handleLine_say_usage] at hs; cases hs; exact h
  · subst e; rw [handleLine_nick] at hs; cases hs
    intro a r hr
    have := h a r hr
    by_cases ha : a = b
    · subst ha
      simpa [World.members] using this
    · simpa [World.members, Function.update_noteq ha] using this
  · subst e
    rw [handleLine_join] at hs
    cases hq : quitCurrentRoom w b with
    | none => simp [hq] at hs
    | some w₁ =>
      obtain ⟨hcl, hclosed, -⟩ := quitCurrentRoom_fields w w₁ b hq
      simp only [hq, Option.some.injEq] at hs
      subst hs
      intro a r hr
      rw [joinWorld_members]
      have hq' := fun r' hr' => MemberIffCurrent_quit w w₁ b h hq a r' hr'
      by_cases ha : a = b
      · subst ha
        by_cases e : r = x
        · subst e
          simp [joinWorld, hclosed, hc]
        · have e' : ¬ x = r := fun y => e y.symm
          simp [e, hq' r hr, joinWorld, e']
      · by_cases e : r = x
        · subst e
          simp [ha, hq' r hr, joinWorld, Function.update_noteq ha, hcl, hclosed]
        · simp [e, ha, hq' r hr, joinWorld, Function.update_noteq ha, hcl, hclosed]
  · subst e; rw [handleLine_say] at hs
    split at hs
    · cases hs; exact h
    · split at hs
      · cases hs
      · cases hs; exact h
  · rw [handleLine_quit w b line e] at hs
    cases hq : quitCurrentRoom w b with
    | none => simp [hq] at hs
    | some w₁ =>
      obtain ⟨hcl, hclosed, -⟩ := quitCurrentRoom_fields w w₁ b hq
      simp only [hq, Option.some.injEq] at hs
      subst hs
      intro a r hr
      have hq' := MemberIffCurrent_quit w w₁ b h hq a r hr
      show a ∈ w₁.members r ↔ _
      rw [hq']
      by_cases ha : a = b
      · subst ha
        simp
      · simp [ha, Function.update_noteq ha, hcl, hclosed]
  · rw [handleLine_other w b line e₁ e₂ e₃ e₄] at hs; cases hs; exact h

/-- In every reachable state, for every room name other than the empty string, a
connection is in the member set exactly when it is open and the name is its `room`
field; so it is in at most one such member set. -/
theorem Reachable.memberIffCurrent {w : World} (h : Reachable w) : MemberIffCurrent w := by
  induction h with
  | init =>
    intro a r hr
    have : ¬ "" = r := fun e => hr e.symm
    simp [World.members, World.init, handleConnection, this]
  | @step w a input s _ hc hs ih =>
    cases input with
    | error e => cases hs; exact ih
    | ok line => exact handleLine_memberIffCurrent w a line s ih hc hs

/-- A second `/join` to another room removes the session from the first room when
the first room's name is not empty. -/
theorem second_join_leaves_named_room (w : World) (a : Addr) (r₁ r₂ : String)
    (hw : Reachable w) (hne : r₁ ≠ r₂) (h₁ : r₁ ≠ "") :
    ∃ s₁ s₂, handleLine w a ("/join " ++ r₁) = some s₁ ∧
      handleLine s₁.world a ("/join " ++ r₂) = some s₂ ∧
      a ∉ s₂.world.members r₁ ∧ a ∈ s₂.world.members r₂ := by
  obtain ⟨w₁, hq⟩ := quitCurrentRoom_some w a hw.registered
  have hreg₁ : Registered (joinWorld w₁ a r₁) :=
    Registered_join w₁ a r₁ (Registered_quit w w₁ a hw.registered hq)
  obtain ⟨w₂, hq₂⟩ := quitCurrentRoom_some (joinWorld w₁ a r₁) a hreg₁
  obtain ⟨-, -, hm⟩ := quitCurrentRoom_fields _ w₂ a hq₂
  refine ⟨⟨joinWorld w₁ a r₁, joinOut w₁ a r₁, true⟩, ⟨joinWorld w₂ a r₂, joinOut w₂ a r₂, true⟩,
    ?_, ?_, ?_, ?_⟩
  · rw [handleLine_join, hq]
  · rw [handleLine_join, hq₂]
  · show a ∉ (joinWorld w₂ a r₂).members r₁
    rw [joinWorld_members, if_neg hne, hm r₁]
    simp [joinWorld, h₁]
  · show a ∈ (joinWorld w₂ a r₂).members r₂
    rw [joinWorld_members_self]
    exact Finset.mem_insert_self _ _

/-! ## The room named by the empty string -/

/-- C2, at the failing input: after `/join ` (empty room name) and `/join a` from one
session, in a reachable state with the session still open, its address is in the
member sets of two rooms, `""` and `a`, while its `room` field is `a`. -/
theorem member_of_two_rooms :
    Reachable (runW World.init [(1, .ok "/join "), (1, .ok "/join a")]) ∧
      1 ∈ (runW World.init [(1, .ok "/join "), (1, .ok "/join a")]).members "" ∧
      1 ∈ (runW World.init [(1, .ok "/join "), (1, .ok "/join a")]).members "a" ∧
      ((runW World.init [(1, .ok "/join "), (1, .ok "/join a")]).clients 1).room = "a" ∧
      (runW World.init [(1, .ok "/join "), (1, .ok "/join a")]).closed 1 = false :=
  ⟨runW_reachable _ _ Reachable.init, by decide, by decide, by decide, by decide⟩

/-- C3, at the failing input: `/join ` then `/join a` from a fresh session are both
processed, and afterwards the member set of the first room (`""`) still contains the
session, next to the member set of `a`. -/
theorem second_join_keeps_empty_room :
    ∃ s₁ s₂, handleLine World.init 1 "/join " = some s₁ ∧
      handleLine s₁.world 1 "/join a" = some s₂ ∧
      1 ∈ s₂.world.members "" ∧ 1 ∈ s₂.world.members "a" :=
  ⟨_, _, rfl, rfl, by decide, by decide⟩

/-! ## Read failures -/

theorem run_cons_error (w : World) (a : Addr) (e : String)
    (evs : List (Addr × Except String String)) :
    run w ((a, .error e) :: evs) = run w evs := by
  by_cases hc : w.closed a = true
  · simp [run, hc]
  · cases h : run w evs with
    | none => simp [run, hc, loopBody, h]
    | some p =>
      obtain ⟨w₁, o⟩ := p
      simp only [run, hc, loopBody, h, Bool.false_eq_true, if_false]
      rfl

theorem running_iff_of_true (st : Step) (c : String) (h₁ : st.running = true)
    (h₂ : c ≠ "/quit") : st.running = false ↔ c = "/quit" :=
  ⟨fun h => absurd (h₁.symm.trans h) (by decide), fun h => absurd h h₂⟩

/-- The loop ends (`break loop`) in a step exactly when the line's first token is
`/quit`. -/
theorem handleLine_running_iff_quit (w : World) (b : Addr) (line : String) (s : Step)
    (h : handleLine w b line = some s) :
    s.running = false ↔ firstToken line = "/quit" := by
  rcases line_cases line with e | e | e | ⟨x, e⟩ | ⟨x, e⟩ | ⟨x, e⟩ | e | ⟨e₁, e₂, e₃, e₄⟩
  · subst e; rw [handleLine_nick_usage] at h; cases h
    exact running_iff_of_true _ _ rfl (by decide)
  · subst e; rw [handleLine_join_usage] at h; cases h
    exact running_iff_of_true _ _ rfl (by decide)
  · subst e; rw [handleLine_say_usage] at h; cases h
    exact running_iff_of_true _ _ rfl (by decide)
  · subst e
    have hf : firstToken ("/nick " ++ x) = "/nick" := firstToken_cmd_space "/nick" x (by decide)
    rw [handleLine_nick] at h; cases h
    rw [hf]
    exact running_iff_of_true _ _ rfl (by decide)
  · subst e
    have hf : firstToken ("/join " ++ x) = "/join" := firstToken_cmd_space "/join" x (by decide)
    rw [handleLine_join] at h
    rw [hf]
    cases hq : quitCurrentRoom w b with
    | none => simp [hq] at h
    | some w₁ =>
      simp only [hq, Option.some.injEq] at h
      subst h
      exact running_iff_of_true _ _ rfl (by decide)
  · subst e
    have hf : firstToken ("/say " ++ x) = "/say" := firstToken_cmd_space "/say" x (by decide)
    rw [handleLine_say] at h
    rw [hf]
    split at h
    · cases h; exact running_iff_of_true _ _ rfl (by decide)
    · split at h
      · cases h
      · cases h; exact running_iff_of_true _ _ rfl (by decide)
  · rw [handleLine_quit w b line e] at h
    cases hq : quitCurrentRoom w b with
    | none => simp [hq] at h
    | some w₁ =>
      simp only [hq, Option.some.injEq] at h
      subst h
      exact ⟨fun _ => e, fun _ => rfl⟩
  · rw [handleLine_other w b line e₁ e₂ e₃ e₄] at h; cases h
    exact running_iff_of_true _ _ rfl e₄

/-- C11 as stated fails: when the read of session 1 fails in `lobbyWorld`, the loop
of the session goes on (`continue`), its connection is not closed, and the session is
still a member of its room. -/
theorem read_failure_does_not_end_loop :
    ∃ s, loopBody lobbyWorld 1 (readClientInput (.error "EOF")) = some s ∧
      s.running = true ∧ s.world.closed 1 = false ∧ 1 ∈ s.world.members "lobby" :=
  ⟨_, rfl, rfl, by decide, by decide⟩

/-- C11, amended: on a failure to read the next input line the loop of the session
does not end: the failure is logged, nothing is written to any connection, the state
is unchanged (the connection stays open), and the loop goes to its next iteration.
In a reachable state an iteration ends the loop exactly when it has read a line whose
first token is `/quit`. -/
theorem read_failure_continues (w : World) (a : Addr) (e : String) :
    loopBody w a (readClientInput (.error e)) = some ⟨w, silent, true⟩ ∧
    ∀ input, Reachable w →
      ∃ s, loopBody w a input = some s ∧
        (s.running = false ↔ ∃ line, input = .ok line ∧ firstToken line = "/quit") := by
  refine ⟨rfl, fun input hw => ?_⟩
  obtain ⟨s, hs, -⟩ := loopBody_registered w a input hw.registered
  refine ⟨s, hs, ?_⟩
  cases input with
  | error x =>
    cases hs
    refine ⟨fun c => ?_, fun ⟨_, c, _⟩ => ?_⟩
    · cases c
    · cases c
  | ok line =>
    rw [handleLine_running_iff_quit w a line s hs]
    exact ⟨fun c => ⟨line, rfl, c⟩, fun ⟨l, c, hl⟩ => by cases c; exact hl⟩

/-- C11, amended, on an instance: in `lobbyWorld` a read failure of session 1 leaves
the loop running, and a `/quit` line ends it. -/
theorem read_failure_continues_witness :
    loopBody lobbyWorld 1 (readClientInput (.error "EOF")) = some ⟨lobbyWorld, silent, true⟩ ∧
    ∃ s, loopBody lobbyWorld 1 (.ok "/quit") = some s ∧ s.running = false := by
  obtain ⟨h₁, h₂⟩ := read_failure_continues lobbyWorld 1 "EOF"
  obtain ⟨s, hs, hiff⟩ := h₂ (.ok "/quit") (runW_reachable _ _ Reachable.init)
  exact ⟨h₁, s, hs, hiff.mpr ⟨"/quit", rfl, by decide⟩⟩

/-! ## The registry only grows -/

/-- One processed line keeps every registered room name registered. -/
theorem handleLine_rooms_some (w : World) (b : Addr) (line : String) (s : Step)
    (h : handleLine w b line = some s) (r : String) (hr : ∃ x, w.rooms r = some x) :
    ∃ x, s.world.rooms r = some x := by
  rcases line_cases line with e | e | e | ⟨x, e⟩ | ⟨x, e⟩ | ⟨x, e⟩ | e | ⟨e₁, e₂, e₃, e₄⟩
  · subst e; rw [handleLine_nick_usage] at h; cases h; exact hr
  · subst e; rw [handleLine_join_usage] at h; cases h; exact hr
  · subst e; rw [handleLine_say_usage] at h; cases h; exact hr
  · subst e; rw [handleLine_nick] at h; cases h; exact hr
  · subst e
    rw [handleLine_join] at h
    cases hq : quitCurrentRoom w b with
    | none => simp [hq] at h
    | some w₁ =>
      have hr₁ := (quitCurrentRoom_rooms_some w w₁ b hq r).mpr hr
      simp only [hq, Option.some.injEq] at h
      subst h
      by_cases e : r = x
      · subst e
        simp [joinWorld]
      · simpa [joinWorld, Function.update_noteq e] using hr₁
  · subst e; rw [handleLine_say] at h
    split at h
    · cases h; exact hr
    · split at h
      · cases h
      · cases h; exact hr
  · rw [handleLine_quit w b line e] at h
    cases hq : quitCurrentRoom w b with
    | none => simp [hq] at h
    | some w₁ =>
      have hr₁ := (quitCurrentRoom_rooms_some w w₁ b hq r).mpr hr
      simp only [hq, Option.some.injEq] at h
      subst h
      exact hr₁
  · rw [handleLine_other w b line e₁ e₂ e₃ e₄] at h; cases h; exact hr

theorem runW_rooms_some (r : String) (evs : List (Addr × Except String String)) :
    ∀ w, Registered w → (∃ x, w.rooms r = some x) → ∃ x, (runW w evs).rooms r = some x := by
  induction evs with
  | nil => intro w _ h; exact h
  | cons ev evs ih =>
    intro w hreg hr
    obtain ⟨a, input⟩ := ev
    by_cases hc : w.closed a = true
    · rw [runW_cons_closed w a input evs hc]
      exact ih w hreg hr
    · have hc' : w.closed a = false := by simpa using hc
      obtain ⟨s, hs, hreg'⟩ := loopBody_registered w a input hreg
      rw [runW_cons_open w a input evs s hreg hc' hs]
      refine ih s.world hreg' ?_
      cases input with
      | error e => cases hs; exact hr
      | ok line => exact handleLine_rooms_some w a line s hs r hr

/-- C15: a room name that is registered in a reachable state is still registered
after any further loop iterations of any sessions (other joins, `/quit`, anything
else); nothing removes a room, also not one whose member set has become empty. -/
theorem rooms_stay_registered (w : World) (hw : Reachable w) (r : String)
    (hr : ∃ x, w.rooms r = some x) (evs : List (Addr × Except String String)) :
    ∃ x, (runW w evs).rooms r = some x :=
  runW_rooms_some r evs w hw.registered hr

/-- C15, on an instance: `lobby` is registered by a join; its two members then leave
(one joins another room, one quits), and `lobby` stays registered, with no member. -/
theorem rooms_stay_registered_witness :
    (∃ x, (runW lobbyWorld [(1, .ok "/join den"), (2, .ok "/quit")]).rooms "lobby" = some x) ∧
      (runW lobbyWorld [(1, .ok "/join den"), (2, .ok "/quit")]).members "lobby" = ∅ :=
  ⟨rooms_stay_registered lobbyWorld (runW_reachable _ _ Reachable.init) "lobby"
    (Option.isSome_iff_exists.mp (by decide)) [(1, .ok "/join den"), (2, .ok "/quit")], by decide⟩

/-- C18: in a reachable state every non-empty `room` field names a registered room,
and so every line of every session is processed without dereferencing a missing room
(the lookups of `/say`, of `quitCurrentRoom` and of `/join` after the create step all
find their room). -/
theorem registry_lookups_never_miss (w : World) (hw : Reachable w) :
    (∀ a, (w.clients a).room ≠ "" → ∃ r, w.rooms (w.clients a).room = some r) ∧
    (∀ a, ∃ w₁, quitCurrentRoom w a = some w₁) ∧
    (∀ a line, ∃ s, handleLine w a line = some s) :=
  ⟨hw.registered, fun a => quitCurrentRoom_some w a hw.registered,
    fun a line => (handleLine_registered w a line hw.registered).imp fun _ h => h.1⟩

/-- C18, on an instance: in `lobbyWorld` the room of connection 2 is registered and
its `/say` and `/quit` lines are processed. -/
theorem registry_lookups_never_miss_witness :
    (∃ r, lobbyWorld.rooms (lobbyWorld.clients 2).room = some r) ∧
    (∃ s, handleLine lobbyWorld 2 "/say hi" = some s) ∧
    (∃ s, handleLine lobbyWorld 2 "/quit" = some s) :=
  ⟨(registry_lookups_never_miss lobbyWorld (runW_reachable _ _ Reachable.init)).1 2
      (by decide),
    (registry_lookups_never_miss lobbyWorld (runW_reachable _ _ Reachable.init)).2.2 2 _,
    (registry_lookups_never_miss lobbyWorld (runW_reachable _ _ Reachable.init)).2.2 2 _⟩

/-! ## Who receives a `/say` -/

theorem say_line_shape (line : String) (h : firstToken line = "/say") :
    line = "/say" ∨ ∃ x, line = "/say " ++ x := by
  rcases line_cases line with e | e | e | ⟨x, e⟩ | ⟨x, e⟩ | ⟨x, e⟩ | e | ⟨-, -, e₃, -⟩
  · subst e; exact absurd h (by decide)
  · subst e; exact absurd h (by decide)
  · exact Or.inl e
  · subst e
    rw [show "/nick " ++ x = "/nick" ++ " " ++ x from rfl,
      firstToken_cmd_space "/nick" x (by decide)] at h
    exact absurd h (by decide)
  · subst e
    rw [show "/join " ++ x = "/join" ++ " " ++ x from rfl,
      firstToken_cmd_space "/join" x (by decide)] at h
    exact absurd h (by decide)
  · exact Or.inr ⟨x, e⟩
  · rw [h] at e; exact absurd e (by decide)
  · exact absurd h e₃

/-- C19: in a reachable state a `/say` line of session `A` is processed, and any other
connection `b` to which it writes something is open, has a current room, and its
current room is the current room of `A`; connections in other rooms, in no room, or
closed by `/quit` are written nothing. -/
theorem say_stays_in_room (w : World) (hw : Reachable w) (A : Addr) (line : String)
    (hl : firstToken line = "/say") :
    ∃ s, handleLine w A line = some s ∧
      ∀ b, b ≠ A → s.out b ≠ [] →
        (w.clients b).room = (w.clients A).room ∧ (w.clients b).room ≠ "" ∧
          w.closed b = false := by
  rcases say_line_shape line hl with e | ⟨x, e⟩
  · subst e
    refine ⟨_, handleLine_say_usage w A, fun b hb ho => ?_⟩
    exact absurd (by simp [sendMsgToClient, hb]) ho
  · subst e
    by_cases hr : (w.clients A).room = ""
    · refine ⟨_, by rw [handleLine_say, if_pos hr], fun b hb ho => ?_⟩
      exact absurd (by simp [sendMsgToClient, hb]) ho
    · obtain ⟨r, hreg⟩ := hw.registered A hr
      refine ⟨_, by rw [handleLine_say, if_neg hr, hreg], fun b hb ho => ?_⟩
      have hmem : b ∈ w.members (w.clients A).room := by
        by_contra hn
        apply ho
        have hn' : b ∉ r.members := by simpa [World.members, hreg] using hn
        simp [room.announce, hn']
      obtain ⟨h₁, h₂⟩ := (hw.memberIffCurrent b _ hr).mp hmem
      exact ⟨h₁, by rw [h₁]; exact hr, h₂⟩

/-- C19, on an instance: Bob speaks in `lobbyWorld`; connection 1 (in `lobby`) may be
written to, and connection 3 (in no room) is written nothing. -/
theorem say_stays_in_room_witness :
    ∃ s, handleLine lobbyWorld 2 "/say hello" = some s ∧
      (s.out 1 ≠ [] → (lobbyWorld.clients 1).room = (lobbyWorld.clients 2).room) ∧
      s.out 3 = [] := by
  obtain ⟨s, hs, h⟩ :=
    say_stays_in_room lobbyWorld (runW_reachable _ _ Reachable.init) 2 "/say hello"
      (by decide)
  refine ⟨s, hs, fun ho => (h 1 (by decide) ho).1, ?_⟩
  by_contra ho
  exact absurd (h 3 (by decide) ho).2.1 (by decide)

/-! ## Joining the room named by the empty string -/

/-- C20: in a reachable state the line `/join ` (the command and one space) is
accepted: the session is added to the member set of the room named `""` and is written
`welcome to `; its `room` field is then empty, so a following `/say x` is answered
with `join a room first to send a message`, and a following `/join r` or `/quit`
leaves the session in the member set of room `""`. -/
theorem join_empty_room_name (w : World) (hw : Reachable w) (a : Addr) :
    ∃ s₁, handleLine w a "/join " = some s₁ ∧ a ∈ s₁.world.members "" ∧
      s₁.out a = ["welcome to \n"] ∧
      (∀ x, handleLine s₁.world a ("/say " ++ x) =
        some ⟨s₁.world, sendMsgToClient a "join a room first to send a message", true⟩) ∧
      (∀ r, ∃ s₂, handleLine s₁.world a ("/join " ++ r) = some s₂ ∧
        a ∈ s₂.world.members "") ∧
      (∃ s₃, handleLine s₁.world a "/quit" = some s₃ ∧ a ∈ s₃.world.members "") := by
  obtain ⟨w₁, hq⟩ := quitCurrentRoom_some w a hw.registered
  have hroom : ((joinWorld w₁ a "").clients a).room = "" := by simp [joinWorld]
  have hmem : a ∈ (joinWorld w₁ a "").members "" := by
    rw [joinWorld_members_self]
    exact Finset.mem_insert_self _ _
  have hq₁ : quitCurrentRoom (joinWorld w₁ a "") a = some (joinWorld w₁ a "") := by
    rw [quitCurrentRoom_eq, if_pos hroom]
  refine ⟨⟨joinWorld w₁ a "", joinOut w₁ a "", true⟩, ?_, hmem, ?_, ?_, ?_, ?_⟩
  · show handleLine w a ("/join " ++ "") = _
    rw [handleLine_join, hq]
  · show joinOut w₁ a "" a = _
    rw [joinOut_apply w w₁ a a "" hq, if_pos rfl]
    rfl
  · intro x
    show handleLine (joinWorld w₁ a "") a ("/say " ++ x) = _
    rw [handleLine_say, if_pos hroom]
  · intro r
    refine ⟨⟨joinWorld (joinWorld w₁ a "") a r, joinOut (joinWorld w₁ a "") a r, true⟩, ?_, ?_⟩
    · show handleLine (joinWorld w₁ a "") a ("/join " ++ r) = _
      rw [handleLine_join, hq₁]
    · show a ∈ (joinWorld (joinWorld w₁ a "") a r).members ""
      rw [joinWorld_members]
      split
      · exact Finset.mem_insert_self _ _
      · exact hmem
  · refine ⟨⟨⟨(joinWorld w₁ a "").clients, (joinWorld w₁ a "").rooms,
        Function.update (joinWorld w₁ a "").closed a true⟩,
      sendMsgToClient a "Sad to see you go =(", false⟩, ?_, hmem⟩
    show handleLine (joinWorld w₁ a "") a "/quit" = _
    rw [handleLine_quit _ a "/quit" (by decide), hq₁]

/-- C20, on an instance: Bob, a member of `lobby`, sends `/join `. -/
theorem join_empty_room_name_witness :
    ∃ s₁, handleLine lobbyWorld 2 "/join " = some s₁ ∧ 2 ∈ s₁.world.members "" ∧
      s₁.out 2 = ["welcome to \n"] ∧
      handleLine s₁.world 2 ("/say " ++ "x") =
        some ⟨s₁.world, sendMsgToClient 2 "join a room first to send a message", true⟩ ∧
      (∃ s₂, handleLine s₁.world 2 ("/join " ++ "lobby") = some s₂ ∧
        2 ∈ s₂.world.members "") ∧
      (∃ s₃, handleLine s₁.world 2 "/quit" = some s₃ ∧ 2 ∈ s₃.world.members "") := by
  obtain ⟨s₁, h₁, h₂, h₃, h₄, h₅, h₆⟩ :=
    join_empty_room_name lobbyWorld (runW_reachable _ _ Reachable.init) 2
  exact ⟨s₁, h₁, h₂, h₃, h₄ "x", h₅ "lobby", h₆⟩

/-! ## `/quit` -/

/-- In a reachable state a `/quit` line is processed: it writes `Sad to see you go =(`
to the sender only, closes the connection and ends the loop, so that no later entry of
that connection is read; the sender is then in no member set of a room with a
non-empty name. -/
theorem quit_effects (w : World) (hw : Reachable w) (a : Addr) (line : String)
    (hl : firstToken line = "/quit") :
    ∃ s, handleLine w a line = some s ∧ s.out = sendMsgToClient a "Sad to see you go =(" ∧
      s.running = false ∧ s.world.closed a = true ∧
      (∀ r, r ≠ "" → a ∉ s.world.members r) ∧
      ∀ input evs, runW s.world ((a, input) :: evs) = runW s.world evs := by
  obtain ⟨w₁, hq⟩ := quitCurrentRoom_some w a hw.registered
  refine ⟨⟨⟨w₁.clients, w₁.rooms, Function.update w₁.closed a true⟩,
    sendMsgToClient a "Sad to see you go =(", false⟩, ?_, rfl, rfl, ?_, ?_, ?_⟩
  · rw [handleLine_quit w a line hl, hq]
  · simp
  · intro r hr hin
    have := (MemberIffCurrent_quit w w₁ a hw.memberIffCurrent hq a r hr).mp hin
    exact this.1 rfl
  · intro input evs
    exact runW_cons_closed _ a input evs (by simp)

/-- C12, at the failing input: after `/join ` (empty room name) and `/quit` from one
session, the connection is closed and its loop has ended, and its address is still in
the member set of the room named `""`. -/
theorem quit_keeps_empty_room_member :
    Reachable (runW World.init [(1, .ok "/join "), (1, .ok "/quit")]) ∧
      (runW World.init [(1, .ok "/join "), (1, .ok "/quit")]).closed 1 = true ∧
      1 ∈ (runW World.init [(1, .ok "/join "), (1, .ok "/quit")]).members "" :=
  ⟨runW_reachable _ _ Reachable.init, by decide, by decide⟩

/-! ## The argument string -/

theorem Join_tail_splitChars (cs : List Char) (h : ' ' ∈ cs) :
    (strings.Join ((strings.splitChars ' ' cs).tail.map String.mk) " ").data
      = (cs.dropWhile (fun c => c != ' ')).drop 1 := by
  induction cs with
  | nil => simp at h
  | cons c cs ih =>
    by_cases hc : c = ' '
    · subst hc
      simp only [strings.splitChars, if_true, List.tail_cons]
      rw [strings.Join_splitChars]
      simp [List.dropWhile]
    · have hmem : ' ' ∈ cs := by
        rcases List.mem_cons.mp h with e | e
        · exact absurd e.symm hc
        · exact e
      obtain ⟨q, qs, hq⟩ := List.exists_cons_of_ne_nil (strings.splitChars_ne_nil ' ' cs)
      have ih' := ih hmem
      rw [hq] at ih'
      simp only [strings.splitChars, hc, if_false, hq, List.tail_cons]
      simp only [List.tail_cons] at ih'
      rw [ih']
      have hb : (c != ' ') = true := by simp [hc]
      simp [List.dropWhile, hb]

theorem splitChars_tail_ne_nil (cs : List Char) (h : ' ' ∈ cs) :
    (strings.splitChars ' ' cs).tail ≠ [] := by
  induction cs with
  | nil => simp at h
  | cons c cs ih =>
    by_cases hc : c = ' '
    · subst hc
      simpa [strings.splitChars] using strings.splitChars_ne_nil ' ' cs
    · have hmem : ' ' ∈ cs := by
        rcases List.mem_cons.mp h with e | e
        · exact absurd e.symm hc
        · exact e
      obtain ⟨q, qs, hq⟩ := List.exists_cons_of_ne_nil (strings.splitChars_ne_nil ' ' cs)
      have ih' := ih hmem
      rw [hq] at ih'
      simpa [strings.splitChars, hc, hq] using ih'

/-- A line with a space is its command token, a space, and its argument string. -/
theorem line_eq_token_space_args (line : String) (h : ' ' ∈ line.data) :
    line = firstToken line ++ " " ++ argString line := by
  obtain ⟨c, xs, hx⟩ := List.exists_cons_of_ne_nil (strings.Split_ne_nil line ' ')
  have ht : xs ≠ [] := by
    intro e
    apply splitChars_tail_ne_nil line.data h
    have h1 : (strings.Split line ' ').tail = [] := by rw [hx]; exact e
    unfold strings.Split at h1
    rw [← List.map_tail] at h1
    exact List.map_eq_nil_iff.mp h1
  obtain ⟨y, ys, hy⟩ := List.exists_cons_of_ne_nil ht
  have hj := strings.Join_Split line
  rw [hx, hy] at hj
  simp only [strings.Join] at hj
  simp only [firstToken, argString, hx, hy, List.headD_cons, List.tail_cons]
  exact hj.symm

/-- C17: every line that contains a space is its command token, one space, and its
argument string; and the argument string (the pieces after the first of the line split
at `" "`, joined with `" "`) is the part of the line after its first space, character
for character. -/
theorem arg_string_is_remainder (line : String) (h : ' ' ∈ line.data) :
    line = firstToken line ++ " " ++ argString line ∧
      argString line = afterFirstSpace line := by
  refine ⟨line_eq_token_space_args line h, ?_⟩
  apply String.ext
  simp only [argString, strings.Split, afterFirstSpace, ← List.map_tail]
  exact Join_tail_splitChars line.data h

/-- C17, on an instance: repeated, leading and trailing spaces of the message are
kept. -/
theorem arg_string_is_remainder_witness :
    argString "/say  a  b " = afterFirstSpace "/say  a  b " ∧
      afterFirstSpace "/say  a  b " = " a  b " :=
  ⟨(arg_string_is_remainder "/say  a  b " (by decide)).2, by decide⟩

/-! ## Whitespace tokens -/

theorem splitWhere_append_sep (p : Char → Bool) (sep : Char) (pre r : List Char)
    (hs : p sep = true) (h : ∀ c ∈ pre, p c = false) :
    splitWhere p (pre ++ sep :: r) = pre :: splitWhere p r := by
  induction pre with
  | nil => simp [splitWhere, hs]
  | cons c pre ih =>
    have hc : p c = false := h c (List.mem_cons_self _ _)
    have hp : ∀ d ∈ pre, p d = false := fun d hd => h d (List.mem_cons_of_mem _ hd)
    simp [splitWhere, hc, ih hp]

theorem splitWhere_of_none (p : Char → Bool) (pre : List Char)
    (h : ∀ c ∈ pre, p c = false) : splitWhere p pre = [pre] := by
  induction pre with
  | nil => simp [splitWhere]
  | cons c pre ih =>
    have hc : p c = false := h c (List.mem_cons_self _ _)
    have hp : ∀ d ∈ pre, p d = false := fun d hd => h d (List.mem_cons_of_mem _ hd)
    simp [splitWhere, hc, ih hp]

theorem Join_cons_cons_data (t u : String) (rest : List String) :
    (strings.Join (t :: u :: rest) " ").data
      = t.data ++ ' ' :: (strings.Join (u :: rest) " ").data := by
  simp [strings.Join, String.data_append]

theorem splitChars_Join (tokens : List String) (hne : tokens ≠ [])
    (h : ∀ t ∈ tokens, ' ' ∉ t.data) :
    strings.splitChars ' ' (strings.Join tokens " ").data = tokens.map String.data := by
  induction tokens with
  | nil => exact absurd rfl hne
  | cons t rest ih =>
    cases rest with
    | nil =>
      simpa [strings.Join] using
        strings.splitChars_of_not_mem ' ' t.data (h t (List.mem_cons_self _ _))
    | cons u rest =>
      rw [Join_cons_cons_data,
        strings.splitChars_append_sep _ _ _ (h t (List.mem_cons_self _ _)),
        ih (by simp) (fun x hx => h x (List.mem_cons_of_mem _ hx))]
      rfl

theorem splitWhere_Join (tokens : List String) (hne : tokens ≠ [])
    (h : ∀ t ∈ tokens, ∀ c ∈ t.data, c.isWhitespace = false) :
    splitWhere Char.isWhitespace (strings.Join tokens " ").data = tokens.map String.data := by
  induction tokens with
  | nil => exact absurd rfl hne
  | cons t rest ih =>
    cases rest with
    | nil =>
      simpa [strings.Join] using
        splitWhere_of_none Char.isWhitespace t.data (h t (List.mem_cons_self _ _))
    | cons u rest =>
      rw [Join_cons_cons_data,
        splitWhere_append_sep _ _ _ _ (by decide) (h t (List.mem_cons_self _ _)),
        ih (by simp) (fun x hx => h x (List.mem_cons_of_mem _ hx))]
      rfl

/-- C14 as stated fails: in `/nick  Bob` (two spaces) the code splits at each space
and sets the name to ` Bob`, with the leading space, while the whitespace tokens
joined with single spaces give `Bob`. -/
theorem run_of_spaces_is_kept :
    ((runW World.init [(1, .ok "/nick  Bob")]).clients 1).name = " Bob" ∧
      argString "/nick  Bob" = " Bob" ∧ specArgString "/nick  Bob" = "Bob" := by
  decide

/-- C14, amended: for every line made of non-empty tokens without whitespace,
separated by single spaces, the split at `" "` gives exactly these tokens (the first
is the command token), and the argument string is the argument tokens joined with
single spaces, as the whitespace tokenisation gives it. -/
theorem single_spaced_line_tokens (tokens : List String) (hne : tokens ≠ [])
    (h : ∀ t ∈ tokens, t ≠ "" ∧ ∀ c ∈ t.data, c.isWhitespace = false) :
    strings.Split (strings.Join tokens " ") ' ' = tokens ∧
      argString (strings.Join tokens " ") = strings.Join tokens.tail " " ∧
      argString (strings.Join tokens " ") = specArgString (strings.Join tokens " ") := by
  have hsp : ∀ t ∈ tokens, ' ' ∉ t.data := by
    intro t ht hin
    exact absurd ((h t ht).2 ' ' hin) (by decide)
  have hmk : (tokens.map String.data).map String.mk = tokens := by
    rw [List.map_map]
    exact (List.map_congr_left (fun t _ => rfl)).trans (List.map_id _)
  have h₁ : strings.Split (strings.Join tokens " ") ' ' = tokens := by
    rw [strings.Split, splitChars_Join tokens hne hsp, hmk]
  have hfil : (tokens.map String.data).filter (fun t => !t.isEmpty) = tokens.map String.data := by
    rw [List.filter_eq_self]
    intro d hd
    obtain ⟨t, ht, rfl⟩ := List.mem_map.mp hd
    have : t.data ≠ [] := fun e => (h t ht).1 (String.ext e)
    cases hdata : t.data with
    | nil => exact absurd hdata this
    | cons c cs => rfl
  have h₂ : specTokens (strings.Join tokens " ") = tokens := by
    rw [specTokens, splitWhere_Join tokens hne (fun t ht => (h t ht).2), hfil, hmk]
  refine ⟨h₁, ?_, ?_⟩
  · rw [argString, h₁]
  · rw [argString, specArgString, h₁, h₂]

/-- C14, amended, on an instance: `/say hello big world`. -/
theorem single_spaced_line_tokens_witness :
    strings.Split (strings.Join ["/say", "hello", "big", "world"] " ") ' '
        = ["/say", "hello", "big", "world"] ∧
      argString (strings.Join ["/say", "hello", "big", "world"] " ")
        = strings.Join ["hello", "big", "world"] " " ∧
      argString (strings.Join ["/say", "hello", "big", "world"] " ")
        = specArgString (strings.Join ["/say", "hello", "big", "world"] " ") :=
  single_spaced_line_tokens ["/say", "hello", "big", "world"] (by decide) (by decide)

/-! ## Failing writes -/

theorem announceOn_attempted (fails : Addr → Bool) (sender : Addr) (msg : String)
    (order : List Addr) (hn : order.Nodup) (b : Addr) :
    (announceOn fails sender msg order).attempted b =
      if b ∈ order ∧ sender ≠ b then [msg ++ "\n"] else [] := by
  induction order with
  | nil => simp [announceOn, silent]
  | cons c rest ih =>
    obtain ⟨hc, hrest⟩ := List.nodup_cons.mp hn
    have ih' := ih hrest
    by_cases hs : sender = c
    · subst hs
      simp only [announceOn, ne_eq, not_true_eq_false, if_false, ih', List.mem_cons]
      by_cases hb : sender = b
      · simp [hb]
      · have hb' : ¬ b = sender := fun e => hb e.symm
        simp [hb']
    · simp only [announceOn, ne_eq, hs, not_false_eq_true, if_true, Writes.append, Out.append,
        sendMsgToClientOn, sendMsgToClient, ih', List.mem_cons]
      by_cases hb : b = c
      · subst hb
        simp [hc, hs]
      · simp [hb]

theorem announceOn_delivered (fails : Addr → Bool) (sender : Addr) (msg : String)
    (order : List Addr) (b : Addr) :
    (announceOn fails sender msg order).delivered b =
      if fails b then [] else (announceOn fails sender msg order).attempted b := by
  induction order with
  | nil => simp [announceOn, silent]
  | cons c rest ih =>
    by_cases hs : sender = c
    · simp only [announceOn, ne_eq, hs, not_true_eq_false, if_false]
      simpa [hs] using ih
    · simp only [announceOn, ne_eq, hs, not_false_eq_true, if_true, Writes.append, Out.append,
        sendMsgToClientOn, ih]
      by_cases hf : fails b = true
      · by_cases hb : b = c
        · subst hb
          simp [hf, silent]
        · by_cases hfc : fails c = true
          · simp [hf, hfc, silent]
          · simp [hf, hfc, sendMsgToClient, hb]
      · by_cases hfc : fails c = true
        · by_cases hb : b = c
          · subst hb
            exact absurd hfc hf
          · simp [hf, hfc, sendMsgToClient, hb, silent]
        · simp [hf, hfc]

theorem say_keeps_state (w : World) (A : Addr) (line : String) (s : Step)
    (hl : firstToken line = "/say") (hs : handleLine w A line = some s) :
    s.world = w ∧ s.running = true := by
  rcases say_line_shape line hl with e | ⟨x, e⟩
  · subst e; rw [handleLine_say_usage] at hs; cases hs; exact ⟨rfl, rfl⟩
  · subst e; rw [handleLine_say] at hs
    split at hs
    · cases hs; exact ⟨rfl, rfl⟩
    · split at hs
      · cases hs
      · cases hs; exact ⟨rfl, rfl⟩

/-- C13: whichever connections reject their writes and in whichever order the members
are visited, the loop of `announce` attempts exactly one write of the text to every
member other than the sender (the same writes as with no failure), and every such
member whose write succeeds receives it; and the `/say` step that broadcasts leaves the
state unchanged and the loop of the sender running. -/
theorem failed_write_does_not_abort_broadcast (r : room) (sender : Addr) (msg : String)
    (fails : Addr → Bool) (order : List Addr) (hn : order.Nodup)
    (ho : ∀ b, b ∈ order ↔ b ∈ r.members) :
    (announceOn fails sender msg order).attempted = r.announce sender msg ∧
    (∀ b, (announceOn fails sender msg order).attempted b =
      if b ∈ r.members ∧ b ≠ sender then [msg ++ "\n"] else []) ∧
    (∀ b, fails b = false →
      (announceOn fails sender msg order).delivered b = r.announce sender msg b) ∧
    (∀ w line, Reachable w → firstToken line = "/say" →
      ∃ s, handleLine w sender line = some s ∧ s.world = w ∧ s.running = true) := by
  have hatt : ∀ b, (announceOn fails sender msg order).attempted b = r.announce sender msg b := by
    intro b
    rw [announceOn_attempted fails sender msg order hn b]
    simp only [room.announce, ho b]
  refine ⟨funext hatt, ?_, ?_, ?_⟩
  · intro b
    rw [hatt b]
    by_cases hb : b = sender
    · subst hb; simp [room.announce]
    · have hb' : ¬ sender = b := fun e => hb e.symm
      simp [room.announce, hb, hb']
  · intro b hb
    rw [announceOn_delivered, hb, ← hatt b]
    rfl
  · intro w line hw hl
    obtain ⟨s, hs, -⟩ := handleLine_registered w sender line hw.registered
    exact ⟨s, hs, say_keeps_state w sender line s hl hs⟩

/-- C13, on an instance: members 1, 2, 3, sender 2, visited in the order 3, 1, 2; the
write to connection 3 fails, and connection 1 still receives the text. -/
theorem failed_write_does_not_abort_broadcast_witness :
    (announceOn (fun b => decide (b = 3)) 2 "> Bob says: hi" [3, 1, 2]).attempted 3
        = ["> Bob says: hi\n"] ∧
      (announceOn (fun b => decide (b = 3)) 2 "> Bob says: hi" [3, 1, 2]).delivered 1
        = ["> Bob says: hi\n"] ∧
      (announceOn (fun b => decide (b = 3)) 2 "> Bob says: hi" [3, 1, 2]).attempted 2 = [] := by
  have h := failed_write_does_not_abort_broadcast ⟨{1, 2, 3}⟩ 2 "> Bob says: hi"
    (fun b => decide (b = 3)) [3, 1, 2] (by decide) (by
      intro b
      simp only [List.mem_cons, List.mem_singleton, List.mem_nil_iff, or_false,
        Finset.mem_insert, Finset.mem_singleton]
      tauto)
  refine ⟨?_, ?_, ?_⟩
  · rw [h.2.1 3]; decide
  · rw [h.2.2.1 1 (by decide)]; decide
  · rw [h.2.1 2]; decide

end TelnetChat
